import Mathlib

/-!
Verification of the HierCC clustering-and-encoding engine (HierCC.py).

The development shallowly embeds the core pipeline of `hierCC`:
profile preparation, ordering, single-linkage dendrogram construction,
encoding of the dendrogram into the per-threshold cluster-id matrix
`res`, incremental attachment of new profiles, and the append mode that
seeds rows from a prior snapshot.  Matrices are lists of rows of `Int`;
a `res` row has the shape `[id, HC0, HC1, ..., HCL]`, so the code at
allelic-distance threshold `t` sits at column `t + 1`.

External collaborators (the `getDistance` module, scipy's
single-linkage `linkage`, numpy's stable `argsort`) are not part of the
source tree; they are modelled from the specification, as marked on
each such definition.
-/

/-- An allelic profile: a type identifier followed by the allele calls,
one per locus.  Non-positive allele values mean a missing call
(mirrors a row of `mat` in `HierCC.py`). -/
structure Profile where
  id : Int
  alleles : List Int
deriving DecidableEq, Repr

instance : Inhabited Profile := ⟨⟨0, []⟩⟩

/-- Rows whose type id is non-positive are discarded during loading
(`mat = mat[mat.T[0]>0]`, HierCC.py line 48). -/
def prepare_mat (rows : List Profile) : List Profile :=
  rows.filter (fun r => 0 < r.id)

/-- Number of non-positive entries of a row, id column included
(`absence = np.sum(mat <= 0, 1)`, HierCC.py line 68). -/
def absence (r : Profile) : Nat :=
  ((r.id :: r.alleles).filter (fun v => v ≤ 0)).length

/-- Insert into a sorted list, after any element of equal key, so the
overall sort is stable. -/
def insertByKey (key : Profile → Nat) (x : Profile) : List Profile → List Profile
  | [] => [x]
  | y :: ys => if key x ≤ key y then x :: y :: ys else y :: insertByKey key x ys

/-- Modelled from the spec: numpy's stable mergesort-based `argsort`
(HierCC.py line 69) is not part of the source tree; spec section 4.1
requires a stable sort by ascending completeness score.  A stable
insertion sort by the given key. -/
def stableSortBy (key : Profile → Nat) : List Profile → List Profile
  | [] => []
  | x :: xs => insertByKey key x (stableSortBy key xs)

/-- Modelled from the spec: the external `getDistance` module is not in
the source tree; spec section 6 defines the distance of two profiles as
the count of loci where both allele calls are known (positive) and
differ. -/
def allelicDist (xs ys : List Int) : Nat :=
  ((xs.zip ys).filter (fun p => 0 < p.1 ∧ 0 < p.2 ∧ p.1 ≠ p.2)).length

/-- Allelic distance between two profiles (ignores the id column). -/
def profDist (p q : Profile) : Nat := allelicDist p.alleles q.alleles

/-- Number of columns of the profile matrix (`mat.shape[1]`): id column
plus one column per locus. -/
def matWidth (mat : List Profile) : Nat := (mat.headD default).alleles.length + 1

/-- Largest type id of the matrix (`np.max(mat.T[0])`, HierCC.py line 84). -/
def maxIdVal (mat : List Profile) : Int := ((mat.map (fun r => r.id)).max?).getD 0

/-- Initial code matrix: each row is its own id repeated
`mat.shape[1] + 1` times, negative entries clamped to `max id + 100`,
column 0 reset to the id (HierCC.py lines 83-85). -/
def initRes (mat : List Profile) : List (List Int) :=
  mat.map (fun r =>
    ((List.replicate (matWidth mat + 1) r.id).map
      (fun v => if v < 0 then maxIdVal mat + 100 else v)).set 0 r.id)

/-- Single-linkage distance between two clusters given by their lists of
leaf indices: minimum of the base distance over all cross pairs. -/
def clDist (D : Nat → Nat → Nat) (xs ys : List Nat) : Nat :=
  ((xs.flatMap (fun x => ys.map (fun y => D x y))).min?).getD 0

/-- All index pairs `(i, j)` with `i < j < m`, in scan order. -/
def pairIdxs (m : Nat) : List (Nat × Nat) :=
  (List.range m).flatMap (fun i => ((List.range m).filter (fun j => i < j)).map (fun j => (i, j)))

/-- First element attaining the minimal value of `f` (ties keep the
earliest element). -/
def argminBy (f : α → Nat) : List α → Option α
  | [] => none
  | x :: xs => some (xs.foldl (fun b y => if f y < f b then y else b) x)

/-- Modelled from the spec: scipy's `linkage(..., method='single')`
(HierCC.py line 96) is external; spec section 4.2 asks for classic
agglomerative single linkage, repeatedly merging the two clusters at
minimal single-linkage distance with a deterministic tie rule.  The
state is a list of clusters `(node index, leaf indices)`; each merge
emits `(nodeA, nodeB, distance)` and creates node `nextId`.  Fuel
bounds the recursion; `singleLinkage` supplies enough for all merges. -/
def slAux (D : Nat → Nat → Nat) : Nat → Nat → List (Nat × List Nat) → List (Nat × Nat × Nat)
  | 0, _, _ => []
  | fuel + 1, nextId, cs =>
      if cs.length ≤ 1 then []
      else
        match argminBy
            (fun p => clDist D (cs.getD p.1 (0, [])).2 (cs.getD p.2 (0, [])).2)
            (pairIdxs cs.length) with
        | none => []
        | some (i, j) =>
            let a := cs.getD i (0, [])
            let b := cs.getD j (0, [])
            (a.1, b.1, clDist D a.2 b.2) ::
              slAux D fuel (nextId + 1)
                (((cs.eraseIdx j).eraseIdx i) ++ [(nextId, a.2 ++ b.2)])

/-- Merge-event list of the single-linkage dendrogram over `n` leaves
(leaf `i` is cluster `i`; the `k`-th merge creates node `n + k`). -/
def singleLinkage (D : Nat → Nat → Nat) (n : Nat) : List (Nat × Nat × Nat) :=
  slAux D n n ((List.range n).map (fun i => (i, [i])))

/-- Row index of the profile with id `s` (`index = {s: i for i, s in
enumerate(mat.T[0])}`, HierCC.py line 98; a duplicated id keeps the last
index, as in the Python dict comprehension). -/
def indexOfId (mat : List Profile) (s : Int) : Nat :=
  (List.range mat.length).foldl (fun a i => if (mat.getD i default).id = s then i else a) 0

/-- Overwrite the row of the profile with id `tgt` from column `d + 1`
on with the values of the anchor row
(`res[index[tgt], c[2]+1:] = res[index[min_id], c[2]+1:]`,
HierCC.py line 106). -/
def absorbOne (mat : List Profile) (d anchor : Nat) (rs : List (List Int)) (tgt : Int) :
    List (List Int) :=
  rs.set (indexOfId mat tgt)
    (((rs.getD (indexOfId mat tgt) []).take (d + 1)) ++ ((rs.getD anchor []).drop (d + 1)))

/-- One encoding step for a merge event (HierCC.py lines 100-106): order
the two merged nodes by the head of their descendant-id lists, take the
minimal id of the first as anchor, copy the anchor row's columns from
`d + 1` on into every row of the second (absorbed) side, and record the
combined descendant list for the new node. -/
def encodeStep (mat : List Profile) (st : List (List Int) × List (List Int))
    (ev : Nat × Nat × Nat) : List (List Int) × List (List Int) :=
  let res := st.1
  let desc := st.2
  let d := ev.2.2
  let a := if (desc.getD ev.2.1 []).headD 0 < (desc.getD ev.1 []).headD 0 then ev.2.1 else ev.1
  let b := if (desc.getD ev.2.1 []).headD 0 < (desc.getD ev.1 []).headD 0 then ev.1 else ev.2.1
  let minId := ((desc.getD a []).min?).getD 0
  let res' := (desc.getD b []).foldl (absorbOne mat d (indexOfId mat minId)) res
  (res', desc ++ [desc.getD a [] ++ desc.getD b []])

/-- Encode the whole merge-event list, starting from singleton
descendant lists (`descendents = [[m] for m in mat.T[0]]`). -/
def encodeRun (mat : List Profile) (res : List (List Int))
    (events : List (Nat × Nat × Nat)) : List (List Int) × List (List Int) :=
  events.foldl (encodeStep mat) (res, mat.map (fun r => [r.id]))

/-- First index `j < k` minimising `f` (`np.argmin`, first occurrence
on ties). -/
def argminIdx (f : Nat → Nat) (k : Nat) : Nat :=
  (List.range k).foldl (fun b j => if f j < f b then j else b) 0

/-- One attachment step (HierCC.py lines 109-114): profile at row
`id + start` looks up its nearest neighbour `i` among rows
`0 .. id + start - 1`; if the neighbour's code at column `minD + 1` is
smaller than its own, columns from `minD + 1` on are copied from the
neighbour's row. -/
def attachStep (mat : List Profile) (start : Nat) (res : List (List Int))
    (id : Nat) : List (List Int) :=
  if 0 < id + start then
    let drow := fun j => profDist (mat.getD (id + start) default) (mat.getD j default)
    let i := argminIdx drow (id + start)
    let minD := drow i
    let r := res.getD (id + start) []
    let ri := res.getD i []
    if ri.getD (minD + 1) 0 < r.getD (minD + 1) 0 then
      res.set (id + start) ((r.take (minD + 1)) ++ (ri.drop (minD + 1)))
    else res
  else res

/-- The nearest-neighbour attachment pass over all rows from `start` on
(HierCC.py lines 108-114). -/
def attachPass (mat : List Profile) (start : Nat) (res : List (List Int)) : List (List Int) :=
  (List.range (mat.length - start)).foldl (attachStep mat start) res

/-- Reset column 0 of the code matrix to the type ids
(`res.T[0] = mat.T[0]`, HierCC.py line 116). -/
def setCol0 (mat : List Profile) (res : List (List Int)) : List (List Int) :=
  List.zipWith (fun (r : Profile) (row : List Int) => row.set 0 r.id) mat res

/-- Head of a snapshot row (`cls.T[0]`). -/
def snapHead (row : List Int) : Int := row.headD 0

/-- Snapshot row index assigned to id `c` by
`typed = {c: id for id, c in enumerate(cls.T[0]) if c > 0}`
(HierCC.py line 74): the last snapshot row whose positive head is `c`. -/
def typedIdx (snap : List (List Int)) (c : Int) : Option Nat :=
  if 0 < c then
    ((List.range snap.length).filter (fun i => snapHead (snap.getD i []) = c)).getLast?
  else none

/-- Membership test `c in typed`. -/
def isTyped (snap : List (List Int)) (c : Int) : Bool := (typedIdx snap c).isSome

/-- Test `len(typed) > 0` (HierCC.py line 75). -/
def hasTyped (snap : List (List Int)) : Bool := snap.any (fun r => 0 < snapHead r)

/-- Stable partition of the matrix: already-typed profiles first
(`np.vstack([mat[mat_idx], mat[(mat_idx) == False]])`, HierCC.py
line 78). -/
def reorderTyped (snap : List (List Int)) (mat0 : List Profile) : List Profile :=
  mat0.filter (fun r => isTyped snap r.id) ++ mat0.filter (fun r => ! isTyped snap r.id)

/-- Seed rows of already-typed profiles from the snapshot
(`for r in res: if r[0] in typed: r[:] = cls[typed[r[0]]]`, HierCC.py
lines 89-91). -/
def applySnap (snap : List (List Int)) (res : List (List Int)) : List (List Int) :=
  res.map (fun row =>
    match typedIdx snap (row.headD 0) with
    | some k => snap.getD k []
    | none => row)

/-- The full (no `--append`) hierCC run on the given profile rows:
filter, stable sort by absence, initial code matrix, single-linkage
encoding, attachment pass with `start = 0`, reset of column 0. -/
def hierCC_full (rows : List Profile) : List (List Int) :=
  let mat := stableSortBy absence (prepare_mat rows)
  let events := singleLinkage
    (fun i j => profDist (mat.getD i default) (mat.getD j default)) mat.length
  setCol0 mat (attachPass mat 0 (encodeRun mat (initRes mat) events).1)

/-- The incremental (`--append`) hierCC run: filter, stable partition
with typed profiles first, initial code matrix, rows of typed profiles
replaced by their snapshot rows, attachment pass from `start`, reset of
column 0. -/
def hierCC_append (snap : List (List Int)) (rows : List Profile) : List (List Int) :=
  let mat0 := prepare_mat rows
  let mat := if hasTyped snap then reorderTyped snap mat0 else mat0
  let start := if hasTyped snap then (mat0.filter (fun r => isTyped snap r.id)).length else 0
  setCol0 mat (attachPass mat start (applySnap snap (initRes mat)))

/-- Row of the output matrix holding the codes of profile `pid`. -/
def findRow (res : List (List Int)) (pid : Int) : List Int :=
  (res.find? (fun row => row.headD 0 = pid)).getD []

/-- Code of profile `pid` at allelic-distance threshold `t` (column
`t + 1` of its row). -/
def codeAt (res : List (List Int)) (pid : Int) (t : Nat) : Int :=
  (findRow res pid).getD (t + 1) 0

/-- One hop of single-linkage connectivity at threshold `t` among the
profiles of `l`. -/
def linkStep (l : List Profile) (t : Nat) (p q : Profile) : Prop :=
  p ∈ l ∧ q ∈ l ∧ profDist p q ≤ t

/-- Connectivity at allelic distance at most `t`: reflexive-transitive
closure of single hops of distance at most `t`. -/
def Conn (l : List Profile) (t : Nat) : Profile → Profile → Prop :=
  Relation.ReflTransGen (linkStep l t)

/-- Distance between two rows of the working matrix, by index
(the function handed to the linkage and attachment passes). -/
def matD (mat : List Profile) : Nat → Nat → Nat :=
  fun i j => profDist (mat.getD i default) (mat.getD j default)

/-- The four-profile example of spec section 8. -/
def exampleRows : List Profile := [⟨1, [1, 1, 1]⟩, ⟨2, [1, 1, 2]⟩, ⟨3, [1, 2, 2]⟩, ⟨4, [9, 9, 9]⟩]

/-- Snapshot produced by the full run on the example rows. -/
def exampleSnap : List (List Int) := hierCC_full exampleRows

/-- The example rows extended by profile 5, identical to profile 1
(spec section 8, incremental-append test case). -/
def exampleRows5 : List Profile := exampleRows ++ [⟨5, [1, 1, 1]⟩]

/-- A snapshot of the output row width whose rows do not induce
coarsening partitions: rows of profiles 1 and 2 agree at threshold 0
but differ at threshold 1. -/
def nonCoarsenSnap : List (List Int) := [[1, 7, 7, 7], [2, 7, 8, 8]]

/-- Profile rows matching `nonCoarsenSnap` (two loci each). -/
def nonCoarsenRows : List Profile := [⟨1, [1, 1]⟩, ⟨2, [1, 2]⟩]

/-- An input with a duplicated type id. -/
def dupIdRows : List Profile := [⟨7, [1, 1]⟩, ⟨7, [1, 2]⟩]

/-- A one-locus input with a duplicated id 2: the index dictionary maps
id 2 to its last row, so the first id-2 row keeps its stale initial
codes through the encoding. -/
def dupAttachRows : List Profile := [⟨1, [1]⟩, ⟨2, [1]⟩, ⟨2, [1]⟩]

/-- The working matrix of the example run (prepared and sorted). -/
def exampleMat : List Profile := stableSortBy absence (prepare_mat exampleRows)

/-- Entry of the code matrix at row `x`, column `j` (out-of-range reads
give 0, which never occurs along the verified runs). -/
def entry (res : List (List Int)) (x j : Nat) : Int := (res.getD x []).getD j 0

/-- The profiles `x` and `y` lie in a common cluster of the state `cs`. -/
def sameBlock (cs : List (Nat × List Nat)) (x y : Nat) : Prop :=
  ∃ c ∈ cs, x ∈ c.2 ∧ y ∈ c.2

/-- Ids of the profiles sharing a cluster with `x` in the state `cs`. -/
def blockIds (M : List Profile) (cs : List (Nat × List Nat)) (x : Nat) : Set Int :=
  {i | ∃ y, sameBlock cs x y ∧ (M.getD y default).id = i}

/-- One hop between leaf indices at threshold `t`. -/
def idxStep (D : Nat → Nat → Nat) (n t : Nat) (x y : Nat) : Prop :=
  x < n ∧ y < n ∧ D x y ≤ t

/-- Connectivity between leaf indices at threshold `t`. -/
def IdxConn (D : Nat → Nat → Nat) (n t : Nat) : Nat → Nat → Prop :=
  Relation.ReflTransGen (idxStep D n t)

/-- Ids of the profiles connected to leaf `x` at threshold `t`. -/
def compIds (M : List Profile) (D : Nat → Nat → Nat) (t x : Nat) : Set Int :=
  {i | ∃ y, y < M.length ∧ IdxConn D M.length t x y ∧ (M.getD y default).id = i}

/-- Invariant tying a single-linkage clustering state `cs` to the code
matrix `res` and the descendant lists `desc` built by the encoder.
`W` is the row width, `nextId` the next dendrogram node index, `dLast`
the distance of the latest merge applied so far. -/
structure EncInv (M : List Profile) (D : Nat → Nat → Nat) (W : Nat)
    (cs : List (Nat × List Nat)) (res desc : List (List Int))
    (nextId dLast : Nat) : Prop where
  res_len : res.length = M.length
  row_len : ∀ x, x < M.length → (res.getD x []).length = W
  desc_len : desc.length = nextId
  node_lt : ∀ c ∈ cs, c.1 < nextId
  node_nodup : (cs.map Prod.fst).Nodup
  mem_lt : ∀ c ∈ cs, ∀ x ∈ c.2, x < M.length
  mem_ne : ∀ c ∈ cs, c.2 ≠ []
  mem_nodup : ∀ c ∈ cs, c.2.Nodup
  disj : ∀ c ∈ cs, ∀ c' ∈ cs, c ≠ c' → ∀ x, x ∈ c.2 → x ∉ c'.2
  cover : ∀ x, x < M.length → ∃ c ∈ cs, x ∈ c.2
  live_desc : ∀ c ∈ cs, desc.getD c.1 [] ≠ [] ∧
    (∀ i : Int, i ∈ desc.getD c.1 [] ↔ ∃ x ∈ c.2, (M.getD x default).id = i) ∧
    (desc.getD c.1 []).headD 0 = ((desc.getD c.1 []).min?).getD 0
  desc_nodup : ∀ c ∈ cs, (desc.getD c.1 []).Nodup
  min_sep : ∀ c ∈ cs, ∀ c' ∈ cs, c ≠ c' → dLast ≤ clDist D c.2 c'.2
  res_hi : ∀ x, x < M.length → ∀ t, dLast ≤ t → t + 1 < W →
    IsLeast (blockIds M cs x) (entry res x (t + 1))
  res_lo : ∀ x, x < M.length → ∀ t, t < dLast → t + 1 < W →
    IsLeast (compIds M D t x) (entry res x (t + 1))
  sound : ∀ x y, sameBlock cs x y → IdxConn D M.length dLast x y

/-- The example rows extended by profile 5 and with profile 2's allele
calls altered (used to show allele calls of already-typed profiles are
ignored in append mode). -/
def exampleRows5b : List Profile :=
  [⟨1, [1, 1, 1]⟩, ⟨2, [5, 6, 7]⟩, ⟨3, [1, 2, 2]⟩, ⟨4, [9, 9, 9]⟩, ⟨5, [1, 1, 1]⟩]

/-- Two-profile matrix for exercising a single attachment step. -/
def attachM : List Profile := [⟨2, [1, 1]⟩, ⟨5, [1, 2]⟩]

/-- Code matrix before the attachment step on `attachM`. -/
def attachRes : List (List Int) := [[2, 2, 2], [5, 5, 5]]

/-- C3 (counterexample): the full run on the example profiles does not
give profile 3 the CodeRow `[3, 3, 1, 1]` claimed by the spec: profile 3
joins the cluster of profiles 1 and 2 at single-linkage distance 1, so
its code at threshold 1 is already 1. -/
theorem profile3_codeRow_differs :
    (findRow (hierCC_full exampleRows) 3).tail ≠ [3, 3, 1, 1] := by decide

/-- C3 (amended): the full run on the example profiles produces the
CodeRows `[1,1,1,1]`, `[2,1,1,1]`, `[3,1,1,1]`, `[4,4,4,1]` for
profiles 1 to 4 respectively. -/
theorem example_codeRows :
    (findRow (hierCC_full exampleRows) 1).tail = [1, 1, 1, 1] ∧
    (findRow (hierCC_full exampleRows) 2).tail = [2, 1, 1, 1] ∧
    (findRow (hierCC_full exampleRows) 3).tail = [3, 1, 1, 1] ∧
    (findRow (hierCC_full exampleRows) 4).tail = [4, 4, 4, 1] := by decide

/-- C4 (counterexample): the first merge event of the example run has
distance 1 and changes the absorbed profile 2's code at threshold 1
(column 2) from 2 to 1, so codes at the threshold equal to the merge
distance are not left unchanged. -/
theorem merge_changes_code_at_threshold_d :
    ((encodeStep exampleMat (initRes exampleMat, exampleMat.map (fun r => [r.id]))
        (0, 1, 1)).1.getD 1 []).getD 2 0 = 1 ∧
    ((initRes exampleMat).getD 1 []).getD 2 0 = 2 ∧ (1 : Int) ≠ 2 := by decide

/-- C5 (counterexample): appending profile 5, identical to profile 1
(nearest-neighbour distance 0), overwrites its code already at
threshold `minD = 0`: the final code of profile 5 at threshold 0 is 1,
not its own id 5, so the overwrite is not confined to thresholds
`minD + 1` and above. -/
theorem append_identical_profile_code0 :
    codeAt (hierCC_append exampleSnap exampleRows5) 5 0 = 1 ∧
    codeAt (hierCC_append exampleSnap exampleRows5) 5 0 ≠ 5 := by decide

/-- C2 (counterexample): an incremental run over a snapshot of the
output row width whose rows do not themselves satisfy the coarsening
invariant copies those rows to the output, so profiles 1 and 2 share
their code at threshold 0 but not at threshold 1. -/
theorem append_nonCoarsening_output :
    codeAt (hierCC_append nonCoarsenSnap nonCoarsenRows) 1 0 =
      codeAt (hierCC_append nonCoarsenSnap nonCoarsenRows) 2 0 ∧
    codeAt (hierCC_append nonCoarsenSnap nonCoarsenRows) 1 1 ≠
      codeAt (hierCC_append nonCoarsenSnap nonCoarsenRows) 2 1 := by decide

/-- C8 (counterexample): on the duplicate-id input `dupAttachRows` the
encoding writes only the last id-2 row, the first id-2 row keeps its
stale initial codes, and the attachment pass's overwrite fires on it:
the pass does not leave the encoded matrix unchanged. -/
theorem duplicate_ids_attach_overwrites :
    attachPass (stableSortBy absence (prepare_mat dupAttachRows)) 0
      (encodeRun (stableSortBy absence (prepare_mat dupAttachRows))
        (initRes (stableSortBy absence (prepare_mat dupAttachRows)))
        (singleLinkage (matD (stableSortBy absence (prepare_mat dupAttachRows)))
          (stableSortBy absence (prepare_mat dupAttachRows)).length)).1 ≠
      (encodeRun (stableSortBy absence (prepare_mat dupAttachRows))
        (initRes (stableSortBy absence (prepare_mat dupAttachRows)))
        (singleLinkage (matD (stableSortBy absence (prepare_mat dupAttachRows)))
          (stableSortBy absence (prepare_mat dupAttachRows)).length)).1 := by decide

/-- C7 (counterexample): an input whose two profiles share the id 7 is
not rejected: the run completes and produces a two-row code matrix. -/
theorem duplicate_ids_produce_matrix :
    (prepare_mat dupIdRows).map (fun r => r.id) = [7, 7] ∧
    hierCC_full dupIdRows ≠ [] ∧ (hierCC_full dupIdRows).length = 2 := by decide

/-! Basic lemmas about list access, the copy-from-column operation, and
the argmin helpers. -/

theorem copy_length {row src : List Int} (hlen : src.length = row.length) (k : Nat) :
    (row.take k ++ src.drop k).length = row.length := by
  rw [List.length_append, List.length_take, List.length_drop]
  omega

theorem copy_getD_lt {row src : List Int} (hlen : src.length = row.length) {k j : Nat}
    (h : j < k) :
    (row.take k ++ src.drop k).getD j 0 = row.getD j 0 := by
  by_cases h2 : j < row.length
  · have hl : j < (row.take k).length := by
      rw [List.length_take]; omega
    rw [List.getD_eq_getElem?_getD, List.getElem?_append, if_pos hl, List.getElem?_take,
      if_pos h, ← List.getD_eq_getElem?_getD]
  · have e1 : row.getD j 0 = 0 := by
      rw [List.getD_eq_getElem?_getD, List.getElem?_eq_none (by omega)]; rfl
    have e2 : (row.take k ++ src.drop k).getD j 0 = 0 := by
      rw [List.getD_eq_getElem?_getD, List.getElem?_eq_none]; rfl
      rw [List.length_append, List.length_take, List.length_drop]; omega
    rw [e1, e2]

theorem copy_getD_ge {row src : List Int} (hlen : src.length = row.length) {k j : Nat}
    (h : k ≤ j) :
    (row.take k ++ src.drop k).getD j 0 = src.getD j 0 := by
  by_cases h2 : j < src.length
  · have hk : k ≤ row.length := by omega
    have hl : ¬ j < (row.take k).length := by
      rw [List.length_take]; omega
    have htl : (row.take k).length = k := by
      rw [List.length_take]; omega
    rw [List.getD_eq_getElem?_getD, List.getElem?_append, if_neg hl, htl,
      List.getElem?_drop]
    have hj : k + (j - k) = j := by omega
    rw [hj, ← List.getD_eq_getElem?_getD]
  · have e1 : src.getD j 0 = 0 := by
      rw [List.getD_eq_getElem?_getD, List.getElem?_eq_none (by omega)]; rfl
    have e2 : (row.take k ++ src.drop k).getD j 0 = 0 := by
      rw [List.getD_eq_getElem?_getD, List.getElem?_eq_none]; rfl
      rw [List.length_append, List.length_take, List.length_drop]; omega
    rw [e1, e2]

theorem getD_set_self_row {res : List (List Int)} {x : Nat} (hx : x < res.length)
    (v : List Int) : (res.set x v).getD x [] = v := by
  rw [List.getD_eq_getElem?_getD, List.getElem?_set_self hx]; rfl

theorem getD_set_ne_row {res : List (List Int)} {x y : Nat} (h : x ≠ y) (v : List Int) :
    (res.set x v).getD y [] = res.getD y [] := by
  rw [List.getD_eq_getElem?_getD, List.getElem?_set_ne h, ← List.getD_eq_getElem?_getD]

theorem listMin_isLeast {α : Type} [LinearOrder α] {l : List α} (h : l ≠ []) (d : α) :
    IsLeast {v : α | v ∈ l} ((l.min?).getD d) := by
  obtain ⟨a, ha⟩ : ∃ a, l.min? = some a := by
    cases l with
    | nil => exact absurd rfl h
    | cons x xs => exact ⟨_, rfl⟩
  rw [ha]
  have hiff := (@List.min?_eq_some_iff α a _ _ ⟨fun h1 h2 => le_antisymm h1 h2⟩
    (fun a => le_refl a) (fun a b => min_choice a b) (fun a b c => le_min_iff) l).1 ha
  exact ⟨hiff.1, fun b hb => hiff.2 b hb⟩

theorem listMin_mem {α : Type} [LinearOrder α] {l : List α} (h : l ≠ []) (d : α) :
    (l.min?).getD d ∈ l := (listMin_isLeast h d).1

theorem listMin_le {α : Type} [LinearOrder α] {l : List α} (h : l ≠ []) (d : α)
    {b : α} (hb : b ∈ l) : (l.min?).getD d ≤ b := (listMin_isLeast h d).2 hb

theorem foldl_if_eq {p : Nat → Prop} [DecidablePred p] (l : List Nat) (i : Nat)
    (huniq : ∀ j ∈ l, p j → j = i) :
    ∀ a0, (a0 = i ∨ (i ∈ l ∧ p i)) →
      l.foldl (fun a j => if p j then j else a) a0 = i := by
  induction l with
  | nil =>
    intro a0 h
    rcases h with h | ⟨h, _⟩
    · exact h
    · cases h
  | cons x xs ih =>
    intro a0 h
    rw [List.foldl_cons]
    by_cases hp : p x
    · have hx : x = i := huniq x (List.mem_cons_self x xs) hp
      rw [if_pos hp, hx]
      exact ih (fun j hj hpj => huniq j (List.mem_cons_of_mem x hj) hpj) i (Or.inl rfl)
    · rw [if_neg hp]
      refine ih (fun j hj hpj => huniq j (List.mem_cons_of_mem x hj) hpj) a0 ?_
      rcases h with h | ⟨hmem, hpi⟩
      · exact Or.inl h
      · rcases List.mem_cons.1 hmem with he | hmem2
        · exact absurd (he ▸ hpi) hp
        · exact Or.inr ⟨hmem2, hpi⟩

theorem indexOfId_eq {mat : List Profile}
    (hids : (mat.map (fun r => r.id)).Nodup) {x : Nat} (hx : x < mat.length) :
    indexOfId mat (mat.getD x default).id = x := by
  unfold indexOfId
  refine foldl_if_eq (List.range mat.length) x ?_ 0
    (Or.inr ⟨List.mem_range.2 hx, rfl⟩)
  intro j hj heq
  have hjlt : j < mat.length := List.mem_range.1 hj
  have h1 : mat.getD j default = mat[j] := by
    rw [List.getD_eq_getElem?_getD, List.getElem?_eq_getElem hjlt]; rfl
  have h2 : mat.getD x default = mat[x] := by
    rw [List.getD_eq_getElem?_getD, List.getElem?_eq_getElem hx]; rfl
  have hjm : j < (mat.map (fun r => r.id)).length := by simpa using hjlt
  have hxm : x < (mat.map (fun r => r.id)).length := by simpa using hx
  have hmaps : (mat.map (fun r => r.id))[j] = (mat.map (fun r => r.id))[x] := by
    simp only [List.getElem_map]
    rw [← h1, ← h2, heq]
  exact (List.Nodup.getElem_inj_iff hids).1 hmaps

theorem argminIdx_succ (f : Nat → Nat) (k : Nat) :
    argminIdx f (k + 1) = if f k < f (argminIdx f k) then k else argminIdx f k := by
  unfold argminIdx
  rw [List.range_succ, List.foldl_append]
  rfl

theorem argminIdx_lt (f : Nat → Nat) : ∀ k, 0 < k → argminIdx f k < k := by
  intro k
  induction k with
  | zero => intro h; cases h
  | succ k ih =>
    intro _
    rw [argminIdx_succ]
    by_cases h : f k < f (argminIdx f k)
    · rw [if_pos h]; omega
    · rw [if_neg h]
      rcases Nat.eq_zero_or_pos k with hk | hk
      · subst hk
        have : argminIdx f 0 = 0 := rfl
        omega
      · have := ih hk
        omega

theorem argminIdx_min (f : Nat → Nat) : ∀ k, ∀ j, j < k → f (argminIdx f k) ≤ f j := by
  intro k
  induction k with
  | zero => intro j hj; cases hj
  | succ k ih =>
    intro j hj
    rw [argminIdx_succ]
    by_cases h : f k < f (argminIdx f k)
    · rw [if_pos h]
      rcases Nat.lt_succ_iff_lt_or_eq.1 hj with hj2 | hj2
      · exact le_of_lt (lt_of_lt_of_le h (ih j hj2))
      · subst hj2; exact le_refl _
    · rw [if_neg h]
      rcases Nat.lt_succ_iff_lt_or_eq.1 hj with hj2 | hj2
      · exact ih j hj2
      · subst hj2; omega

theorem foldl_min_spec {α : Type} (f : α → Nat) (xs : List α) (x : α) :
    (xs.foldl (fun b y => if f y < f b then y else b) x) ∈ x :: xs ∧
    f (xs.foldl (fun b y => if f y < f b then y else b) x) ≤ f x ∧
    ∀ y ∈ xs, f (xs.foldl (fun b y => if f y < f b then y else b) x) ≤ f y := by
  induction xs generalizing x with
  | nil => exact ⟨List.mem_cons_self x [], le_refl _, fun y hy => absurd hy (List.not_mem_nil y)⟩
  | cons z zs ih =>
    rw [List.foldl_cons]
    by_cases h : f z < f x
    · rw [if_pos h]
      obtain ⟨hmem, hle, hall⟩ := ih z
      refine ⟨?_, le_of_lt (lt_of_le_of_lt hle h), ?_⟩
      · rcases List.mem_cons.1 hmem with he | hm
        · rw [he]
          exact List.mem_cons_of_mem x (List.mem_cons_self z zs)
        · exact List.mem_cons_of_mem x (List.mem_cons_of_mem z hm)
      · intro y hy
        rcases List.mem_cons.1 hy with he | hm
        · subst he
          exact hle
        · exact hall y hm
    · rw [if_neg h]
      obtain ⟨hmem, hle, hall⟩ := ih x
      refine ⟨?_, hle, ?_⟩
      · rcases List.mem_cons.1 hmem with he | hm
        · rw [he]
          exact List.mem_cons_self x _
        · exact List.mem_cons_of_mem x (List.mem_cons_of_mem z hm)
      · intro y hy
        rcases List.mem_cons.1 hy with he | hm
        · subst he
          exact le_trans hle (le_of_not_lt h)
        · exact hall y hm

theorem argminBy_spec {α : Type} {f : α → Nat} {l : List α} {x : α}
    (h : argminBy f l = some x) : x ∈ l ∧ ∀ y ∈ l, f x ≤ f y := by
  cases l with
  | nil => cases h
  | cons z zs =>
    have hx : x = zs.foldl (fun b y => if f y < f b then y else b) z := by
      simpa [argminBy] using h.symm
    obtain ⟨hmem, hle, hall⟩ := foldl_min_spec f zs z
    subst hx
    refine ⟨hmem, ?_⟩
    intro y hy
    rcases List.mem_cons.1 hy with he | hm
    · exact he ▸ hle
    · exact hall y hm

theorem argminBy_isSome {α : Type} (f : α → Nat) {l : List α} (h : l ≠ []) :
    ∃ x, argminBy f l = some x := by
  cases l with
  | nil => exact absurd rfl h
  | cons z zs => exact ⟨_, rfl⟩

theorem pairIdxs_mem {m i j : Nat} : (i, j) ∈ pairIdxs m ↔ i < j ∧ j < m := by
  unfold pairIdxs
  simp only [List.mem_flatMap, List.mem_map, List.mem_filter, List.mem_range,
    decide_eq_true_eq]
  constructor
  · rintro ⟨a, ha, b, ⟨hb, hab⟩, he⟩
    have h1 : a = i := congrArg Prod.fst he
    have h2 : b = j := congrArg Prod.snd he
    subst h1
    subst h2
    omega
  · rintro ⟨hij, hjm⟩
    exact ⟨i, by omega, j, ⟨hjm, hij⟩, rfl⟩

theorem clDist_le {D : Nat → Nat → Nat} {xs ys : List Nat} {x y : Nat}
    (hx : x ∈ xs) (hy : y ∈ ys) : clDist D xs ys ≤ D x y := by
  unfold clDist
  have hmem : D x y ∈ xs.flatMap (fun x => ys.map (fun y => D x y)) :=
    List.mem_flatMap.2 ⟨x, hx, List.mem_map.2 ⟨y, hy, rfl⟩⟩
  exact listMin_le (List.ne_nil_of_mem hmem) 0 hmem

theorem clDist_attained {D : Nat → Nat → Nat} {xs ys : List Nat}
    (hxs : xs ≠ []) (hys : ys ≠ []) :
    ∃ x ∈ xs, ∃ y ∈ ys, D x y = clDist D xs ys := by
  obtain ⟨x0, hx0⟩ := List.exists_mem_of_ne_nil xs hxs
  obtain ⟨y0, hy0⟩ := List.exists_mem_of_ne_nil ys hys
  have hne : xs.flatMap (fun x => ys.map (fun y => D x y)) ≠ [] :=
    List.ne_nil_of_mem (List.mem_flatMap.2 ⟨x0, hx0, List.mem_map.2 ⟨y0, hy0, rfl⟩⟩)
  have hmem := listMin_mem hne 0
  rw [List.mem_flatMap] at hmem
  obtain ⟨x, hx, hmap⟩ := hmem
  rw [List.mem_map] at hmap
  obtain ⟨y, hy, he⟩ := hmap
  exact ⟨x, hx, y, hy, he⟩

/-! Positional description of removing two indices from the cluster
list, and frame lemmas for the absorb fold of the encoder. -/

theorem erase2_length {α : Type} {cs : List α} {i j : Nat} (hij : i < j)
    (hj : j < cs.length) :
    ((cs.eraseIdx j).eraseIdx i).length = cs.length - 2 := by
  rw [List.length_eraseIdx, List.length_eraseIdx, if_pos hj, if_pos (by omega)]
  omega

theorem erase2_mem_iff {α : Type} {cs : List α} {i j : Nat} (hij : i < j)
    (hj : j < cs.length) {c : α} :
    c ∈ (cs.eraseIdx j).eraseIdx i ↔
      ∃ p, ∃ hp : p < cs.length, p ≠ i ∧ p ≠ j ∧ cs[p] = c := by
  have hlen2 := erase2_length hij hj
  constructor
  · intro hc
    obtain ⟨q, hq, he⟩ := List.mem_iff_getElem.1 hc
    have hqs : ((cs.eraseIdx j).eraseIdx i)[q]? = some c := by
      rw [List.getElem?_eq_getElem hq, he]
    rw [List.getElem?_eraseIdx] at hqs
    by_cases h1 : q < i
    · rw [if_pos h1, List.getElem?_eraseIdx, if_pos (by omega)] at hqs
      have hql : q < cs.length := by omega
      rw [List.getElem?_eq_getElem hql] at hqs
      exact ⟨q, hql, by omega, by omega, by injection hqs⟩
    · rw [if_neg h1, List.getElem?_eraseIdx] at hqs
      by_cases h2 : q + 1 < j
      · rw [if_pos h2] at hqs
        have hql : q + 1 < cs.length := by omega
        rw [List.getElem?_eq_getElem hql] at hqs
        exact ⟨q + 1, hql, by omega, by omega, by injection hqs⟩
      · rw [if_neg h2] at hqs
        have hq2 : q + 2 < cs.length := by omega
        rw [List.getElem?_eq_getElem hq2] at hqs
        exact ⟨q + 2, hq2, by omega, by omega, by injection hqs⟩
  · rintro ⟨p, hp, hpi, hpj, he⟩
    rw [List.mem_iff_getElem]
    by_cases h1 : p < i
    · have hq : ((cs.eraseIdx j).eraseIdx i)[p]? = some cs[p] := by
        rw [List.getElem?_eraseIdx, if_pos h1, List.getElem?_eraseIdx, if_pos (by omega),
          List.getElem?_eq_getElem hp]
      obtain ⟨hql, he2⟩ := List.getElem?_eq_some_iff.1 hq
      exact ⟨p, hql, he2.trans he⟩
    · by_cases h2 : p < j
      · have hip : i < p := by omega
        have hq : ((cs.eraseIdx j).eraseIdx i)[p - 1]? = some cs[p] := by
          rw [List.getElem?_eraseIdx, if_neg (by omega), List.getElem?_eraseIdx,
            if_pos (by omega)]
          have : p - 1 + 1 = p := by omega
          rw [this, List.getElem?_eq_getElem hp]
        obtain ⟨hql, he2⟩ := List.getElem?_eq_some_iff.1 hq
        exact ⟨p - 1, hql, he2.trans he⟩
      · have hjp : j < p := by omega
        have hq : ((cs.eraseIdx j).eraseIdx i)[p - 2]? = some cs[p] := by
          rw [List.getElem?_eraseIdx, if_neg (by omega), List.getElem?_eraseIdx,
            if_neg (by omega)]
          have : p - 2 + 1 + 1 = p := by omega
          rw [this, List.getElem?_eq_getElem hp]
        obtain ⟨hql, he2⟩ := List.getElem?_eq_some_iff.1 hq
        exact ⟨p - 2, hql, he2.trans he⟩

theorem absorbOne_length (mat : List Profile) (d anchor : Nat) (rs : List (List Int))
    (tgt : Int) : (absorbOne mat d anchor rs tgt).length = rs.length := by
  rw [absorbOne, List.length_set]

theorem absorb_fold_length (mat : List Profile) (d anchor : Nat) (tgts : List Int) :
    ∀ rs : List (List Int), (tgts.foldl (absorbOne mat d anchor) rs).length = rs.length := by
  induction tgts with
  | nil => intro rs; rfl
  | cons t ts ih =>
    intro rs
    rw [List.foldl_cons, ih, absorbOne_length]

theorem absorb_fold_getD_notmem {mat : List Profile} {d anchor : Nat} {tgts : List Int}
    {y : Nat} (hy : ∀ tgt ∈ tgts, indexOfId mat tgt ≠ y) :
    ∀ rs : List (List Int), (tgts.foldl (absorbOne mat d anchor) rs).getD y [] =
      rs.getD y [] := by
  induction tgts with
  | nil => intro rs; rfl
  | cons t ts ih =>
    intro rs
    rw [List.foldl_cons, ih (fun tgt ht => hy tgt (List.mem_cons_of_mem t ht)), absorbOne,
      getD_set_ne_row (hy t (List.mem_cons_self t ts))]

theorem absorb_fold_getD_mem {mat : List Profile} {d anchor : Nat} (tgts : List Int) :
    (tgts.map (indexOfId mat)).Nodup →
    (∀ tgt ∈ tgts, indexOfId mat tgt ≠ anchor) →
    ∀ y : Nat, ∀ tgt0 ∈ tgts, indexOfId mat tgt0 = y →
    ∀ rs : List (List Int), y < rs.length →
      (tgts.foldl (absorbOne mat d anchor) rs).getD y [] =
        ((rs.getD y []).take (d + 1)) ++ ((rs.getD anchor []).drop (d + 1)) := by
  induction tgts with
  | nil =>
    intro _ _ y tgt0 ht0
    cases ht0
  | cons t ts ih =>
    intro hnd hanch y tgt0 ht0 hy0 rs hylen
    rw [List.map_cons, List.nodup_cons] at hnd
    rw [List.foldl_cons]
    rcases List.mem_cons.1 ht0 with he | hmem
    · subst he
      have hrest : ∀ tgt ∈ ts, indexOfId mat tgt ≠ y := by
        intro tgt ht he2
        refine hnd.1 ?_
        have heq : indexOfId mat tgt0 = indexOfId mat tgt := by rw [hy0, he2]
        rw [heq]
        exact List.mem_map.2 ⟨tgt, ht, rfl⟩
      rw [absorb_fold_getD_notmem hrest, absorbOne, hy0, getD_set_self_row hylen]
    · have hty : indexOfId mat t ≠ y := by
        intro he2
        refine hnd.1 ?_
        rw [he2, ← hy0]
        exact List.mem_map.2 ⟨tgt0, hmem, rfl⟩
      have hlen1 : y < (absorbOne mat d anchor rs t).length := by
        rw [absorbOne_length]; exact hylen
      rw [ih hnd.2 (fun tgt ht => hanch tgt (List.mem_cons_of_mem t ht)) y tgt0 hmem hy0
        (absorbOne mat d anchor rs t) hlen1, absorbOne,
        getD_set_ne_row hty, getD_set_ne_row (hanch t (List.mem_cons_self t ts))]

/-! Lemmas about index connectivity, blocks of a clustering state, and
cluster distances. -/

theorem getD_get {α : Type} {l : List α} {p : Nat} (hp : p < l.length)
    (dflt : α) : l.getD p dflt = l[p] := by
  rw [List.getD_eq_getElem?_getD, List.getElem?_eq_getElem hp]
  rfl

theorem id_inj {M : List Profile} (hids : (M.map (fun r => r.id)).Nodup)
    {x y : Nat} (hx : x < M.length) (hy : y < M.length)
    (he : (M.getD x default).id = (M.getD y default).id) : x = y := by
  have hxm : x < (M.map (fun r => r.id)).length := by simpa using hx
  have hym : y < (M.map (fun r => r.id)).length := by simpa using hy
  have h1 : (M.map (fun r => r.id))[x] = (M.map (fun r => r.id))[y] := by
    simp only [List.getElem_map]
    rw [← getD_get hx default, ← getD_get hy default, he]
  exact (List.Nodup.getElem_inj_iff hids).1 h1

theorem IdxConn_symm {D : Nat → Nat → Nat} {n t : Nat}
    (hD : ∀ i j, D i j = D j i) {x y : Nat} (h : IdxConn D n t x y) : IdxConn D n t y x := by
  refine Relation.ReflTransGen.symmetric ?_ h
  intro u v huv
  exact ⟨huv.2.1, huv.1, hD v u ▸ huv.2.2⟩

theorem IdxConn_mono {D : Nat → Nat → Nat} {n t t' : Nat} (ht : t ≤ t')
    {x y : Nat} (h : IdxConn D n t x y) : IdxConn D n t' x y := by
  refine Relation.ReflTransGen.mono ?_ h
  intro u v huv
  exact ⟨huv.1, huv.2.1, le_trans huv.2.2 ht⟩

theorem block_unique {cs : List (Nat × List Nat)}
    (hdisj : ∀ c ∈ cs, ∀ c' ∈ cs, c ≠ c' → ∀ x, x ∈ c.2 → x ∉ c'.2)
    {c c' : Nat × List Nat} (hc : c ∈ cs) (hc' : c' ∈ cs) {x : Nat}
    (hx : x ∈ c.2) (hx' : x ∈ c'.2) : c = c' := by
  by_contra hne
  exact hdisj c hc c' hc' hne x hx hx'

theorem blockIds_eq {M : List Profile} {cs : List (Nat × List Nat)}
    (hdisj : ∀ c ∈ cs, ∀ c' ∈ cs, c ≠ c' → ∀ x, x ∈ c.2 → x ∉ c'.2)
    {c : Nat × List Nat} (hc : c ∈ cs) {x : Nat} (hx : x ∈ c.2) :
    blockIds M cs x = {i | ∃ y ∈ c.2, (M.getD y default).id = i} := by
  ext i
  constructor
  · rintro ⟨y, ⟨c', hc', hxc', hyc'⟩, he⟩
    have : c' = c := block_unique hdisj hc' hc hxc' hx
    subst this
    exact ⟨y, hyc', he⟩
  · rintro ⟨y, hy, he⟩
    exact ⟨y, ⟨c, hc, hx, hy⟩, he⟩

theorem clDist_comm {D : Nat → Nat → Nat} (hD : ∀ i j, D i j = D j i)
    {xs ys : List Nat} (hxs : xs ≠ []) (hys : ys ≠ []) :
    clDist D xs ys = clDist D ys xs := by
  have h1 : clDist D xs ys ≤ clDist D ys xs := by
    obtain ⟨y, hy, x, hx, he⟩ := clDist_attained hys hxs
    calc clDist D xs ys ≤ D x y := clDist_le hx hy
    _ = D y x := hD x y
    _ = clDist D ys xs := he
  have h2 : clDist D ys xs ≤ clDist D xs ys := by
    obtain ⟨x, hx, y, hy, he⟩ := clDist_attained hxs hys
    calc clDist D ys xs ≤ D y x := clDist_le hy hx
    _ = D x y := hD y x
    _ = clDist D xs ys := he
  omega

/-! End-state lemma: once at most one cluster remains, the code matrix
already lists, at every threshold, the least id of each profile's
connected component. -/

theorem encInv_final {M : List Profile} {D : Nat → Nat → Nat} {W : Nat}
    {cs : List (Nat × List Nat)} {res desc : List (List Int)} {nextId dLast : Nat}
    (inv : EncInv M D W cs res desc nextId dLast) (hlen : cs.length ≤ 1) :
    ∀ x, x < M.length → ∀ t, t + 1 < W →
      IsLeast (compIds M D t x) (entry res x (t + 1)) := by
  intro x hx t htW
  match cs, hlen with
  | [], _ =>
    obtain ⟨c, hc, _⟩ := inv.cover x hx
    cases hc
  | [c], _ =>
    obtain ⟨c', hc', hxc⟩ := inv.cover x hx
    have hcc : c' = c := by
      cases hc' with
      | head => rfl
      | tail _ h => cases h
    subst hcc
    by_cases ht : t < dLast
    · exact inv.res_lo x hx t ht htW
    · have hle := inv.res_hi x hx t (by omega) htW
      have hset : blockIds M [c'] x = compIds M D t x := by
        rw [blockIds_eq inv.disj (List.mem_cons_self c' []) hxc]
        ext i
        constructor
        · rintro ⟨y, hy, he⟩
          refine ⟨y, inv.mem_lt c' (List.mem_cons_self c' []) y hy, ?_, he⟩
          exact IdxConn_mono (by omega)
            (inv.sound x y ⟨c', List.mem_cons_self c' [], hxc, hy⟩)
        · rintro ⟨y, hylt, _, he⟩
          obtain ⟨c'', hc'', hyc⟩ := inv.cover y hylt
          have : c'' = c' := by
            cases hc'' with
            | head => rfl
            | tail _ h => cases h
          subst this
          exact ⟨y, hyc, he⟩
      rw [← hset]
      exact hle

theorem getD_append_lt {α : Type} {l1 l2 : List α} {k : Nat} (hk : k < l1.length)
    (d : α) : (l1 ++ l2).getD k d = l1.getD k d := by
  rw [List.getD_eq_getElem?_getD, List.getElem?_append, if_pos hk,
    ← List.getD_eq_getElem?_getD]

theorem getD_append_self {α : Type} {l1 : List α} (e : α) (d : α) :
    (l1 ++ [e]).getD l1.length d = e := by
  rw [List.getD_eq_getElem?_getD, List.getElem?_append, if_neg (by omega)]
  simp

theorem headD_append {α : Type} {l1 l2 : List α} (h : l1 ≠ []) (d : α) :
    (l1 ++ l2).headD d = l1.headD d := by
  cases l1 with
  | nil => exact absurd rfl h
  | cons x xs => rfl

/-- Completeness of the greedy state: two leaves connected at a
threshold below the minimal pairwise cluster distance lie in a common
cluster. -/
theorem conn_same_block {M : List Profile} {D : Nat → Nat → Nat}
    {cs : List (Nat × List Nat)}
    (hcover : ∀ x, x < M.length → ∃ c ∈ cs, x ∈ c.2)
    {dm : Nat} (hmin2 : ∀ c ∈ cs, ∀ c' ∈ cs, c ≠ c' → dm ≤ clDist D c.2 c'.2)
    {t : Nat} (ht : t < dm) {x y : Nat} (hx : x < M.length)
    (h : IdxConn D M.length t x y) : sameBlock cs x y := by
  induction h with
  | refl =>
    obtain ⟨c, hc, hxc⟩ := hcover x hx
    exact ⟨c, hc, hxc, hxc⟩
  | tail _ hstep ih =>
    rename_i b y hconn
    obtain ⟨c1, hc1, hxc1, hbc1⟩ := ih
    obtain ⟨c2, hc2, hyc2⟩ := hcover y hstep.2.1
    by_cases he : c1 = c2
    · subst he
      exact ⟨c1, hc1, hxc1, hyc2⟩
    · exfalso
      have h1 : clDist D c1.2 c2.2 ≤ D b y := clDist_le hbc1 hyc2
      have h2 : dm ≤ clDist D c1.2 c2.2 := hmin2 c1 hc1 c2 hc2 he
      have h3 : D b y ≤ t := hstep.2.2
      omega

/-! The inductive step of the encoder invariant: merging the two
clusters `P` (anchor side, smaller minimal id) and `Q` (absorbed side)
at their single-linkage distance `d` preserves `EncInv`. -/

theorem encStep_inv_core {M : List Profile} {D : Nat → Nat → Nat} {W : Nat}
    (hD : ∀ i j, D i j = D j i) (hids : (M.map (fun r => r.id)).Nodup)
    {cs : List (Nat × List Nat)} {res desc : List (List Int)} {nextId dLast : Nat}
    (inv : EncInv M D W cs res desc nextId dLast)
    {P Q : Nat × List Nat} (hP : P ∈ cs) (hQ : Q ∈ cs) (hPQ : P ≠ Q)
    (hhead : (desc.getD P.1 []).headD 0 < (desc.getD Q.1 []).headD 0)
    {d : Nat} (hd : d = clDist D P.2 Q.2)
    (hminv : ∀ c ∈ cs, ∀ c' ∈ cs, c ≠ c' → d ≤ clDist D c.2 c'.2)
    {rest : List (Nat × List Nat)}
    (hrest_sub : ∀ c ∈ rest, c ∈ cs ∧ c ≠ P ∧ c ≠ Q)
    (hrest_cover : ∀ c ∈ cs, c ≠ P → c ≠ Q → c ∈ rest)
    (hrest_fst : (rest.map Prod.fst).Nodup)
    {mrg : List Nat} (hmrg_iff : ∀ x, x ∈ mrg ↔ x ∈ P.2 ∨ x ∈ Q.2)
    (hmrg_nodup : mrg.Nodup) (hmrg_ne : mrg ≠ []) :
    EncInv M D W (rest ++ [(nextId, mrg)])
      ((desc.getD Q.1 []).foldl
        (absorbOne M d (indexOfId M (((desc.getD P.1 []).min?).getD 0))) res)
      (desc ++ [desc.getD P.1 [] ++ desc.getD Q.1 []])
      (nextId + 1) d := by
  obtain ⟨hdP_ne, hdP_iff, hdP_head⟩ := inv.live_desc P hP
  obtain ⟨hdQ_ne, hdQ_iff, hdQ_head⟩ := inv.live_desc Q hQ
  have hdP_nodup := inv.desc_nodup P hP
  have hdQ_nodup := inv.desc_nodup Q hQ
  have hPdisjQ : ∀ x, x ∈ P.2 → x ∉ Q.2 := inv.disj P hP Q hQ hPQ
  have hPmem_lt := inv.mem_lt P hP
  have hQmem_lt := inv.mem_lt Q hQ
  have hPne := inv.mem_ne P hP
  have hQne := inv.mem_ne Q hQ
  have hdLd : dLast ≤ d := hd ▸ inv.min_sep P hP Q hQ hPQ
  have hPleast : IsLeast {v : Int | v ∈ desc.getD P.1 []}
      (((desc.getD P.1 []).min?).getD 0) := listMin_isLeast hdP_ne 0
  have hQleast : IsLeast {v : Int | v ∈ desc.getD Q.1 []}
      (((desc.getD Q.1 []).min?).getD 0) := listMin_isLeast hdQ_ne 0
  obtain ⟨z, hzP, hzid⟩ := (hdP_iff (((desc.getD P.1 []).min?).getD 0)).1 hPleast.1
  have hzlt : z < M.length := hPmem_lt z hzP
  have hanchor : indexOfId M (((desc.getD P.1 []).min?).getD 0) = z := by
    rw [← hzid]
    exact indexOfId_eq hids hzlt
  have hminPQ : ∀ v ∈ desc.getD Q.1 [], (((desc.getD P.1 []).min?).getD 0) < v := by
    intro v hv
    have h1 : ((desc.getD Q.1 []).min?).getD 0 ≤ v := hQleast.2 hv
    have h2 : (((desc.getD P.1 []).min?).getD 0) < ((desc.getD Q.1 []).min?).getD 0 := by
      rw [← hdP_head, ← hdQ_head]
      exact hhead
    exact lt_of_lt_of_le h2 h1
  have hSdisj : ∀ v : Int, v ∈ desc.getD P.1 [] → v ∉ desc.getD Q.1 [] := by
    intro v hvP hvQ
    obtain ⟨yP, hyP, hyPid⟩ := (hdP_iff v).1 hvP
    obtain ⟨yQ, hyQ, hyQid⟩ := (hdQ_iff v).1 hvQ
    have : yP = yQ := id_inj hids (hPmem_lt yP hyP) (hQmem_lt yQ hyQ)
      (by rw [hyPid, hyQid])
    exact hPdisjQ yP hyP (this ▸ hyQ)
  have hidxQ : ∀ tgt ∈ desc.getD Q.1 [], ∃ y ∈ Q.2,
      (M.getD y default).id = tgt ∧ indexOfId M tgt = y := by
    intro tgt ht
    obtain ⟨y, hy, hyid⟩ := (hdQ_iff tgt).1 ht
    exact ⟨y, hy, hyid, by rw [← hyid]; exact indexOfId_eq hids (hQmem_lt y hy)⟩
  have hnodup_idx : ((desc.getD Q.1 []).map (indexOfId M)).Nodup := by
    refine List.Nodup.map_on ?_ hdQ_nodup
    intro t1 h1 t2 h2 he
    obtain ⟨y1, _, hid1, hix1⟩ := hidxQ t1 h1
    obtain ⟨y2, _, hid2, hix2⟩ := hidxQ t2 h2
    rw [hix1, hix2] at he
    rw [← hid1, ← hid2, he]
  have hanch_ne : ∀ tgt ∈ desc.getD Q.1 [],
      indexOfId M tgt ≠ indexOfId M (((desc.getD P.1 []).min?).getD 0) := by
    intro tgt ht
    obtain ⟨y, hy, _, hix⟩ := hidxQ tgt ht
    rw [hix, hanchor]
    intro he
    exact hPdisjQ z hzP (he ▸ hy)
  have hres₁_len : ((desc.getD Q.1 []).foldl
      (absorbOne M d (indexOfId M (((desc.getD P.1 []).min?).getD 0))) res).length
      = res.length := absorb_fold_length M d _ (desc.getD Q.1 []) res
  have hkeep : ∀ y : Nat, (∀ u ∈ Q.2, u ≠ y) →
      ((desc.getD Q.1 []).foldl
        (absorbOne M d (indexOfId M (((desc.getD P.1 []).min?).getD 0))) res).getD y []
      = res.getD y [] := by
    intro y hy
    refine absorb_fold_getD_notmem ?_ res
    intro tgt ht he
    obtain ⟨y', hy', _, hix⟩ := hidxQ tgt ht
    rw [hix] at he
    exact hy y' hy' he
  have hcopy : ∀ y ∈ Q.2,
      ((desc.getD Q.1 []).foldl
        (absorbOne M d (indexOfId M (((desc.getD P.1 []).min?).getD 0))) res).getD y []
      = ((res.getD y []).take (d + 1)) ++ ((res.getD z []).drop (d + 1)) := by
    intro y hy
    have hmemQ : (M.getD y default).id ∈ desc.getD Q.1 [] :=
      (hdQ_iff ((M.getD y default).id)).2 ⟨y, hy, rfl⟩
    have := @absorb_fold_getD_mem M d (indexOfId M (((desc.getD P.1 []).min?).getD 0))
      (desc.getD Q.1 []) hnodup_idx hanch_ne y
      ((M.getD y default).id) hmemQ (indexOfId_eq hids (hQmem_lt y hy)) res
      (by rw [inv.res_len]; exact hQmem_lt y hy)
    rw [this, hanchor]
  have hPleast2 : IsLeast {i : Int | ∃ y ∈ P.2, (M.getD y default).id = i}
      (((desc.getD P.1 []).min?).getD 0) := by
    constructor
    · exact ⟨z, hzP, hzid⟩
    · rintro i ⟨y, hy, hyid⟩
      exact hPleast.2 ((hdP_iff i).2 ⟨y, hy, hyid⟩)
  have hmrgLeast : IsLeast {i : Int | ∃ y ∈ mrg, (M.getD y default).id = i}
      (((desc.getD P.1 []).min?).getD 0) := by
    constructor
    · exact ⟨z, (hmrg_iff z).2 (Or.inl hzP), hzid⟩
    · rintro i ⟨y, hy, hyid⟩
      rcases (hmrg_iff y).1 hy with h | h
      · exact hPleast.2 ((hdP_iff i).2 ⟨y, h, hyid⟩)
      · exact le_of_lt (hminPQ i ((hdQ_iff i).2 ⟨y, h, hyid⟩))
  have hentryP : ∀ x, x ∈ P.2 → ∀ t, dLast ≤ t → t + 1 < W →
      entry res x (t + 1) = ((desc.getD P.1 []).min?).getD 0 := by
    intro x hx t ht htW
    have h1 := inv.res_hi x (hPmem_lt x hx) t ht htW
    rw [blockIds_eq inv.disj hP hx] at h1
    exact IsLeast.unique h1 hPleast2
  have hmergedMem : (nextId, mrg) ∈ rest ++ [(nextId, mrg)] :=
    List.mem_append_right _ (List.mem_singleton_self _)
  have hdisj2 : ∀ c ∈ rest ++ [(nextId, mrg)], ∀ c' ∈ rest ++ [(nextId, mrg)],
      c ≠ c' → ∀ x, x ∈ c.2 → x ∉ c'.2 := by
    intro c hc c' hc' hne x hxc hxc'
    rcases List.mem_append.1 hc with hc1 | hc2 <;>
      rcases List.mem_append.1 hc' with hc1' | hc2'
    · exact inv.disj c (hrest_sub c hc1).1 c' (hrest_sub c' hc1').1 hne x hxc hxc'
    · have he : c' = (nextId, mrg) := List.mem_singleton.1 hc2'
      rw [he] at hxc'
      rcases (hmrg_iff x).1 hxc' with h | h
      · exact inv.disj c (hrest_sub c hc1).1 P hP (hrest_sub c hc1).2.1 x hxc h
      · exact inv.disj c (hrest_sub c hc1).1 Q hQ (hrest_sub c hc1).2.2 x hxc h
    · have he : c = (nextId, mrg) := List.mem_singleton.1 hc2
      rw [he] at hxc
      rcases (hmrg_iff x).1 hxc with h | h
      · exact inv.disj P hP c' (hrest_sub c' hc1').1
          (fun h2 => (hrest_sub c' hc1').2.1 h2.symm) x h hxc'
      · exact inv.disj Q hQ c' (hrest_sub c' hc1').1
          (fun h2 => (hrest_sub c' hc1').2.2 h2.symm) x h hxc'
    · have he : c = (nextId, mrg) := List.mem_singleton.1 hc2
      have he' : c' = (nextId, mrg) := List.mem_singleton.1 hc2'
      exact absurd (he.trans he'.symm) hne
  have hcover2 : ∀ x, x < M.length → ∃ c ∈ rest ++ [(nextId, mrg)], x ∈ c.2 := by
    intro x hx
    obtain ⟨c, hc, hxc⟩ := inv.cover x hx
    by_cases hcP : c = P
    · exact ⟨(nextId, mrg), hmergedMem, (hmrg_iff x).2 (Or.inl (hcP ▸ hxc))⟩
    · by_cases hcQ : c = Q
      · exact ⟨(nextId, mrg), hmergedMem, (hmrg_iff x).2 (Or.inr (hcQ ▸ hxc))⟩
      · exact ⟨c, List.mem_append_left _ (hrest_cover c hc hcP hcQ), hxc⟩
  refine ⟨?_, ?_, ?_, ?_, ?_, ?_, ?_, ?_, hdisj2, hcover2, ?_, ?_, ?_, ?_, ?_, ?_⟩
  · -- res_len
    rw [hres₁_len, inv.res_len]
  · -- row_len
    intro x hx
    by_cases hxQ : x ∈ Q.2
    · rw [hcopy x hxQ,
        copy_length (by rw [inv.row_len z hzlt, inv.row_len x hx])]
      exact inv.row_len x hx
    · rw [hkeep x (fun u hu he => hxQ (he ▸ hu))]
      exact inv.row_len x hx
  · -- desc_len
    rw [List.length_append, inv.desc_len]
    rfl
  · -- node_lt
    intro c hc
    rcases List.mem_append.1 hc with hc1 | hc2
    · have := inv.node_lt c (hrest_sub c hc1).1
      omega
    · have he : c = (nextId, mrg) := List.mem_singleton.1 hc2
      rw [he]
      exact Nat.lt_succ_self nextId
  · -- node_nodup
    rw [List.map_append]
    refine List.nodup_append.2 ⟨hrest_fst, by simp, ?_⟩
    intro a ha
    obtain ⟨c, hc, he⟩ := List.mem_map.1 ha
    have := inv.node_lt c (hrest_sub c hc).1
    simp only [List.map_cons, List.map_nil, List.mem_singleton]
    omega
  · -- mem_lt
    intro c hc x hxc
    rcases List.mem_append.1 hc with hc1 | hc2
    · exact inv.mem_lt c (hrest_sub c hc1).1 x hxc
    · have he : c = (nextId, mrg) := List.mem_singleton.1 hc2
      rw [he] at hxc
      rcases (hmrg_iff x).1 hxc with h | h
      · exact hPmem_lt x h
      · exact hQmem_lt x h
  · -- mem_ne
    intro c hc
    rcases List.mem_append.1 hc with hc1 | hc2
    · exact inv.mem_ne c (hrest_sub c hc1).1
    · have he : c = (nextId, mrg) := List.mem_singleton.1 hc2
      rw [he]
      exact hmrg_ne
  · -- mem_nodup
    intro c hc
    rcases List.mem_append.1 hc with hc1 | hc2
    · exact inv.mem_nodup c (hrest_sub c hc1).1
    · have he : c = (nextId, mrg) := List.mem_singleton.1 hc2
      rw [he]
      exact hmrg_nodup
  · -- live_desc
    intro c hc
    rcases List.mem_append.1 hc with hc1 | hc2
    · have hlt : c.1 < desc.length := by
        rw [inv.desc_len]
        exact inv.node_lt c (hrest_sub c hc1).1
      rw [getD_append_lt hlt]
      exact inv.live_desc c (hrest_sub c hc1).1
    · have he : c = (nextId, mrg) := List.mem_singleton.1 hc2
      rw [he]
      show (desc ++ [desc.getD P.1 [] ++ desc.getD Q.1 []]).getD nextId [] ≠ [] ∧ _
      have hgd : (desc ++ [desc.getD P.1 [] ++ desc.getD Q.1 []]).getD nextId [] =
          desc.getD P.1 [] ++ desc.getD Q.1 [] := by
        rw [← inv.desc_len]
        exact getD_append_self _ _
      rw [hgd]
      have hne2 : desc.getD P.1 [] ++ desc.getD Q.1 [] ≠ [] := by
        intro hemp
        exact hdP_ne (List.append_eq_nil.1 hemp).1
      refine ⟨hne2, ?_, ?_⟩
      · intro i
        rw [List.mem_append]
        constructor
        · rintro (h | h)
          · obtain ⟨x, hx, he2⟩ := (hdP_iff i).1 h
            exact ⟨x, (hmrg_iff x).2 (Or.inl hx), he2⟩
          · obtain ⟨x, hx, he2⟩ := (hdQ_iff i).1 h
            exact ⟨x, (hmrg_iff x).2 (Or.inr hx), he2⟩
        · rintro ⟨x, hx, he2⟩
          rcases (hmrg_iff x).1 hx with h | h
          · exact Or.inl ((hdP_iff i).2 ⟨x, h, he2⟩)
          · exact Or.inr ((hdQ_iff i).2 ⟨x, h, he2⟩)
      · have hL1 := listMin_isLeast hne2 (0 : Int)
        have hL2 : IsLeast {v : Int | v ∈ desc.getD P.1 [] ++ desc.getD Q.1 []}
            (((desc.getD P.1 []).min?).getD 0) := by
          constructor
          · exact List.mem_append_left _ hPleast.1
          · intro v hv
            rcases List.mem_append.1 hv with h | h
            · exact hPleast.2 h
            · exact le_of_lt (hminPQ v h)
        rw [headD_append hdP_ne, hdP_head]
        exact IsLeast.unique hL2 hL1
  · -- desc_nodup
    intro c hc
    rcases List.mem_append.1 hc with hc1 | hc2
    · have hlt : c.1 < desc.length := by
        rw [inv.desc_len]
        exact inv.node_lt c (hrest_sub c hc1).1
      rw [getD_append_lt hlt]
      exact inv.desc_nodup c (hrest_sub c hc1).1
    · have he : c = (nextId, mrg) := List.mem_singleton.1 hc2
      rw [he]
      show ((desc ++ [desc.getD P.1 [] ++ desc.getD Q.1 []]).getD nextId []).Nodup
      have hgd : (desc ++ [desc.getD P.1 [] ++ desc.getD Q.1 []]).getD nextId [] =
          desc.getD P.1 [] ++ desc.getD Q.1 [] := by
        rw [← inv.desc_len]
        exact getD_append_self _ _
      rw [hgd]
      exact List.Nodup.append hdP_nodup hdQ_nodup (fun v hv1 hv2 => hSdisj v hv1 hv2)
  · -- min_sep
    intro c hc c' hc' hne
    rcases List.mem_append.1 hc with hc1 | hc2 <;>
      rcases List.mem_append.1 hc' with hc1' | hc2'
    · exact hminv c (hrest_sub c hc1).1 c' (hrest_sub c' hc1').1 hne
    · have he : c' = (nextId, mrg) := List.mem_singleton.1 hc2'
      rw [he]
      show d ≤ clDist D c.2 mrg
      have hcne := inv.mem_ne c (hrest_sub c hc1).1
      obtain ⟨x0, hx0, y0, hy0, hatt⟩ := clDist_attained hcne hmrg_ne
      rw [← hatt]
      rcases (hmrg_iff y0).1 hy0 with h | h
      · exact le_trans (hminv c (hrest_sub c hc1).1 P hP (hrest_sub c hc1).2.1)
          (clDist_le hx0 h)
      · exact le_trans (hminv c (hrest_sub c hc1).1 Q hQ (hrest_sub c hc1).2.2)
          (clDist_le hx0 h)
    · have he : c = (nextId, mrg) := List.mem_singleton.1 hc2
      rw [he]
      show d ≤ clDist D mrg c'.2
      have hcne := inv.mem_ne c' (hrest_sub c' hc1').1
      rw [clDist_comm hD hmrg_ne hcne]
      obtain ⟨x0, hx0, y0, hy0, hatt⟩ := clDist_attained hcne hmrg_ne
      rw [← hatt]
      rcases (hmrg_iff y0).1 hy0 with h | h
      · exact le_trans (hminv c' (hrest_sub c' hc1').1 P hP (hrest_sub c' hc1').2.1)
          (clDist_le hx0 h)
      · exact le_trans (hminv c' (hrest_sub c' hc1').1 Q hQ (hrest_sub c' hc1').2.2)
          (clDist_le hx0 h)
    · have he : c = (nextId, mrg) := List.mem_singleton.1 hc2
      have he' : c' = (nextId, mrg) := List.mem_singleton.1 hc2'
      exact absurd (he.trans he'.symm) hne
  · -- res_hi
    intro x hx t ht htW
    by_cases hxQ : x ∈ Q.2
    · have he1 : entry ((desc.getD Q.1 []).foldl
          (absorbOne M d (indexOfId M (((desc.getD P.1 []).min?).getD 0))) res) x (t + 1)
          = entry res z (t + 1) := by
        simp only [entry]
        rw [hcopy x hxQ]
        exact copy_getD_ge
          (by rw [inv.row_len z hzlt, inv.row_len x (hQmem_lt x hxQ)]) (by omega)
      rw [he1, hentryP z hzP t (le_trans hdLd ht) htW,
        blockIds_eq hdisj2 hmergedMem ((hmrg_iff x).2 (Or.inr hxQ))]
      exact hmrgLeast
    · have he1 : entry ((desc.getD Q.1 []).foldl
          (absorbOne M d (indexOfId M (((desc.getD P.1 []).min?).getD 0))) res) x (t + 1)
          = entry res x (t + 1) := by
        simp only [entry]
        rw [hkeep x (fun u hu he => hxQ (he ▸ hu))]
      rw [he1]
      by_cases hxP : x ∈ P.2
      · rw [hentryP x hxP t (le_trans hdLd ht) htW,
          blockIds_eq hdisj2 hmergedMem ((hmrg_iff x).2 (Or.inl hxP))]
        exact hmrgLeast
      · obtain ⟨c, hc, hxc⟩ := inv.cover x hx
        have hcP : c ≠ P := fun he => hxP (he ▸ hxc)
        have hcQ : c ≠ Q := fun he => hxQ (he ▸ hxc)
        rw [blockIds_eq hdisj2 (List.mem_append_left _ (hrest_cover c hc hcP hcQ)) hxc]
        have h1 := inv.res_hi x hx t (le_trans hdLd ht) htW
        rw [blockIds_eq inv.disj hc hxc] at h1
        exact h1
  · -- res_lo
    intro x hx t ht htW
    have he1 : entry ((desc.getD Q.1 []).foldl
        (absorbOne M d (indexOfId M (((desc.getD P.1 []).min?).getD 0))) res) x (t + 1)
        = entry res x (t + 1) := by
      simp only [entry]
      by_cases hxQ : x ∈ Q.2
      · rw [hcopy x hxQ]
        exact copy_getD_lt (by rw [inv.row_len z hzlt, inv.row_len x hx]) (by omega)
      · rw [hkeep x (fun u hu he => hxQ (he ▸ hu))]
    rw [he1]
    by_cases htL : t < dLast
    · exact inv.res_lo x hx t htL htW
    · have h1 := inv.res_hi x hx t (by omega) htW
      obtain ⟨c, hc, hxc⟩ := inv.cover x hx
      rw [blockIds_eq inv.disj hc hxc] at h1
      have hset : {i : Int | ∃ y ∈ c.2, (M.getD y default).id = i} = compIds M D t x := by
        ext i
        constructor
        · rintro ⟨y, hy, he2⟩
          exact ⟨y, inv.mem_lt c hc y hy,
            IdxConn_mono (by omega) (inv.sound x y ⟨c, hc, hxc, hy⟩), he2⟩
        · rintro ⟨y, hylt, hconn, he2⟩
          obtain ⟨c2, hc2, hxc2, hyc2⟩ := conn_same_block inv.cover hminv ht hx hconn
          have hcc : c2 = c := block_unique inv.disj hc2 hc hxc2 hxc
          exact ⟨y, hcc ▸ hyc2, he2⟩
      rw [← hset]
      exact h1
  · -- sound
    intro x y hsb
    obtain ⟨c, hc, hxc, hyc⟩ := hsb
    rcases List.mem_append.1 hc with hc1 | hc2
    · exact IdxConn_mono hdLd (inv.sound x y ⟨c, (hrest_sub c hc1).1, hxc, hyc⟩)
    · have he : c = (nextId, mrg) := List.mem_singleton.1 hc2
      rw [he] at hxc hyc
      obtain ⟨pa, hpa, qb, hqb, hDab⟩ := @clDist_attained D P.2 Q.2 hPne hQne
      have hpan : pa < M.length := hPmem_lt pa hpa
      have hqbn : qb < M.length := hQmem_lt qb hqb
      have hbridge : D qb pa ≤ d := le_of_eq (by rw [hD qb pa, hDab, ← hd])
      have hto : ∀ u, u ∈ mrg → IdxConn D M.length d u pa := by
        intro u hu
        rcases (hmrg_iff u).1 hu with h | h
        · exact IdxConn_mono hdLd (inv.sound u pa ⟨P, hP, h, hpa⟩)
        · exact Relation.ReflTransGen.tail
            (IdxConn_mono hdLd (inv.sound u qb ⟨Q, hQ, h, hqb⟩)) ⟨hqbn, hpan, hbridge⟩
      exact Relation.ReflTransGen.trans (hto x hxc) (IdxConn_symm hD (hto y hyc))

theorem desc_head_ne {M : List Profile} {D : Nat → Nat → Nat} {W : Nat}
    {cs : List (Nat × List Nat)} {res desc : List (List Int)} {nextId dLast : Nat}
    (hids : (M.map (fun r => r.id)).Nodup)
    (inv : EncInv M D W cs res desc nextId dLast)
    {A B : Nat × List Nat} (hA : A ∈ cs) (hB : B ∈ cs) (hAB : A ≠ B) :
    (desc.getD A.1 []).headD 0 ≠ (desc.getD B.1 []).headD 0 := by
  obtain ⟨hAne, hAiff, hAhead⟩ := inv.live_desc A hA
  obtain ⟨hBne, hBiff, hBhead⟩ := inv.live_desc B hB
  intro he
  have h1 : (desc.getD A.1 []).headD 0 ∈ desc.getD A.1 [] := by
    rw [hAhead]
    exact listMin_mem hAne 0
  have h2 : (desc.getD B.1 []).headD 0 ∈ desc.getD B.1 [] := by
    rw [hBhead]
    exact listMin_mem hBne 0
  obtain ⟨yA, hyA, hidA⟩ := (hAiff _).1 h1
  obtain ⟨yB, hyB, hidB⟩ := (hBiff _).1 h2
  have hyy : yA = yB := id_inj hids (inv.mem_lt A hA yA hyA) (inv.mem_lt B hB yB hyB)
    (by rw [hidA, hidB, he])
  exact inv.disj A hA B hB hAB yA hyA (hyy ▸ hyB)

/-- Main induction: running the single-linkage recursion to completion
and encoding every emitted merge event turns the code matrix into the
least-id-of-component table at every threshold. -/
theorem encodeMaster {M : List Profile} {D : Nat → Nat → Nat} {W : Nat}
    (hD : ∀ i j, D i j = D j i) (hids : (M.map (fun r => r.id)).Nodup) :
    ∀ fuel nextId dLast : Nat, ∀ cs : List (Nat × List Nat), ∀ res desc : List (List Int),
      cs.length ≤ fuel + 1 →
      EncInv M D W cs res desc nextId dLast →
      ((slAux D fuel nextId cs).foldl (encodeStep M) (res, desc)).1.length = M.length ∧
      (∀ x, x < M.length →
        ((((slAux D fuel nextId cs).foldl (encodeStep M) (res, desc)).1.getD x []).length = W)) ∧
      (∀ x, x < M.length → ∀ t, t + 1 < W →
        IsLeast (compIds M D t x)
          (entry ((slAux D fuel nextId cs).foldl (encodeStep M) (res, desc)).1 x (t + 1))) := by
  intro fuel
  induction fuel with
  | zero =>
    intro nextId dLast cs res desc hfuel inv
    exact ⟨inv.res_len, inv.row_len, fun x hx t htW => encInv_final inv (by omega) x hx t htW⟩
  | succ fuel ih =>
    intro nextId dLast cs res desc hfuel inv
    by_cases hlen : cs.length ≤ 1
    · simp only [slAux, if_pos hlen, List.foldl_nil]
      exact ⟨inv.res_len, inv.row_len, fun x hx t htW => encInv_final inv hlen x hx t htW⟩
    · obtain ⟨pr, hpr⟩ := argminBy_isSome
        (fun p : Nat × Nat => clDist D (cs.getD p.1 (0, [])).2 (cs.getD p.2 (0, [])).2)
        (List.ne_nil_of_mem (pairIdxs_mem.2 (by omega : 0 < 1 ∧ 1 < cs.length)))
      obtain ⟨i, j⟩ := pr
      obtain ⟨hij_mem, hij_min⟩ := argminBy_spec hpr
      obtain ⟨hij, hjlen⟩ := pairIdxs_mem.1 hij_mem
      have hilen : i < cs.length := by omega
      have hval_ne : ∀ p q : Nat, ∀ hp : p < cs.length, ∀ hq : q < cs.length, p ≠ q →
          cs[p] ≠ cs[q] := by
        intro p q hp hq hpq he
        refine hpq ?_
        have hpm : p < (cs.map Prod.fst).length := by simpa using hp
        have hqm : q < (cs.map Prod.fst).length := by simpa using hq
        have h1 : (cs.map Prod.fst)[p] = (cs.map Prod.fst)[q] := by
          simp only [List.getElem_map]
          rw [he]
        exact (List.Nodup.getElem_inj_iff inv.node_nodup).1 h1
      have hAmem : cs.getD i (0, []) ∈ cs := by
        rw [getD_get hilen]
        exact List.getElem_mem hilen
      have hBmem : cs.getD j (0, []) ∈ cs := by
        rw [getD_get hjlen]
        exact List.getElem_mem hjlen
      have hABne : cs.getD i (0, []) ≠ cs.getD j (0, []) := by
        rw [getD_get hilen, getD_get hjlen]
        exact hval_ne i j hilen hjlen (by omega)
      have hminv : ∀ c ∈ cs, ∀ c' ∈ cs, c ≠ c' →
          clDist D (cs.getD i (0, [])).2 (cs.getD j (0, [])).2 ≤ clDist D c.2 c'.2 := by
        intro c hc c' hc' hne
        obtain ⟨p, hp, hep⟩ := List.mem_iff_getElem.1 hc
        obtain ⟨q, hq, heq⟩ := List.mem_iff_getElem.1 hc'
        have hpq : p ≠ q := by
          intro he2
          subst he2
          exact hne (hep.symm.trans heq)
        have hc2 : cs.getD p (0, []) = c := by rw [getD_get hp]; exact hep
        have hc2' : cs.getD q (0, []) = c' := by rw [getD_get hq]; exact heq
        rcases Nat.lt_or_ge p q with h | h
        · rw [← hc2, ← hc2']
          exact hij_min (p, q) (pairIdxs_mem.2 ⟨h, hq⟩)
        · have hqp : q < p := by omega
          rw [clDist_comm hD (inv.mem_ne c hc) (inv.mem_ne c' hc'), ← hc2, ← hc2']
          exact hij_min (q, p) (pairIdxs_mem.2 ⟨hqp, hp⟩)
      have hrest_sub : ∀ c ∈ (cs.eraseIdx j).eraseIdx i,
          c ∈ cs ∧ c ≠ cs.getD i (0, []) ∧ c ≠ cs.getD j (0, []) := by
        intro c hc
        obtain ⟨p, hp, hpi, hpj, hep⟩ := (erase2_mem_iff hij hjlen).1 hc
        refine ⟨by rw [← hep]; exact List.getElem_mem hp, ?_, ?_⟩
        · rw [← hep, getD_get hilen]
          exact hval_ne p i hp hilen hpi
        · rw [← hep, getD_get hjlen]
          exact hval_ne p j hp hjlen hpj
      have hrest_cover : ∀ c ∈ cs, c ≠ cs.getD i (0, []) → c ≠ cs.getD j (0, []) →
          c ∈ (cs.eraseIdx j).eraseIdx i := by
        intro c hc hne1 hne2
        obtain ⟨p, hp, hep⟩ := List.mem_iff_getElem.1 hc
        refine (erase2_mem_iff hij hjlen).2 ⟨p, hp, ?_, ?_, hep⟩
        · intro he2
          subst he2
          exact hne1 (by rw [← hep, getD_get hilen])
        · intro he2
          subst he2
          exact hne2 (by rw [← hep, getD_get hjlen])
      have hrest_fst : (((cs.eraseIdx j).eraseIdx i).map Prod.fst).Nodup := by
        refine List.Sublist.nodup (List.Sublist.map Prod.fst ?_) inv.node_nodup
        exact List.Sublist.trans (List.eraseIdx_sublist _ i) (List.eraseIdx_sublist _ j)
      have hmrg_nodup : ((cs.getD i (0, [])).2 ++ (cs.getD j (0, [])).2).Nodup :=
        List.Nodup.append (inv.mem_nodup _ hAmem) (inv.mem_nodup _ hBmem)
          (fun v hv1 hv2 => inv.disj _ hAmem _ hBmem hABne v hv1 hv2)
      have hmrg_ne : (cs.getD i (0, [])).2 ++ (cs.getD j (0, [])).2 ≠ [] := by
        intro hemp
        exact inv.mem_ne _ hAmem (List.append_eq_nil.1 hemp).1
      have hlen2 : (((cs.eraseIdx j).eraseIdx i) ++
          [(nextId, (cs.getD i (0, [])).2 ++ (cs.getD j (0, [])).2)]).length ≤ fuel + 1 := by
        rw [List.length_append, erase2_length hij hjlen]
        simp only [List.length_cons, List.length_nil]
        omega
      have hmrg_iff_noswap : ∀ u : Nat,
          u ∈ (cs.getD i (0, [])).2 ++ (cs.getD j (0, [])).2 ↔
            u ∈ (cs.getD i (0, [])).2 ∨ u ∈ (cs.getD j (0, [])).2 :=
        fun u => List.mem_append
      have hmrg_iff_swap : ∀ u : Nat,
          u ∈ (cs.getD i (0, [])).2 ++ (cs.getD j (0, [])).2 ↔
            u ∈ (cs.getD j (0, [])).2 ∨ u ∈ (cs.getD i (0, [])).2 :=
        fun u => by rw [List.mem_append, Or.comm]
      simp only [slAux, if_neg hlen, hpr, List.foldl_cons]
      by_cases hcond : (desc.getD (cs.getD j (0, [])).1 []).headD 0 <
          (desc.getD (cs.getD i (0, [])).1 []).headD 0
      · -- swap: anchor side is cluster at position j
        have hstep : encodeStep M (res, desc)
            ((cs.getD i (0, [])).1, (cs.getD j (0, [])).1,
              clDist D (cs.getD i (0, [])).2 (cs.getD j (0, [])).2) =
            ((desc.getD (cs.getD i (0, [])).1 []).foldl
              (absorbOne M (clDist D (cs.getD i (0, [])).2 (cs.getD j (0, [])).2)
                (indexOfId M (((desc.getD (cs.getD j (0, [])).1 []).min?).getD 0))) res,
             desc ++ [desc.getD (cs.getD j (0, [])).1 [] ++
               desc.getD (cs.getD i (0, [])).1 []]) := by
          simp only [encodeStep, if_pos hcond]
        rw [hstep]
        have hinv2 := encStep_inv_core hD hids inv hBmem hAmem (Ne.symm hABne) hcond
          (clDist_comm hD (inv.mem_ne _ hAmem) (inv.mem_ne _ hBmem))
          hminv
          (fun c hc => ⟨(hrest_sub c hc).1, (hrest_sub c hc).2.2, (hrest_sub c hc).2.1⟩)
          (fun c hc h1 h2 => hrest_cover c hc h2 h1)
          hrest_fst
          hmrg_iff_swap
          hmrg_nodup hmrg_ne
        exact ih (nextId + 1) (clDist D (cs.getD i (0, [])).2 (cs.getD j (0, [])).2)
          _ _ _ hlen2 hinv2
      · -- no swap: anchor side is cluster at position i
        have hstep : encodeStep M (res, desc)
            ((cs.getD i (0, [])).1, (cs.getD j (0, [])).1,
              clDist D (cs.getD i (0, [])).2 (cs.getD j (0, [])).2) =
            ((desc.getD (cs.getD j (0, [])).1 []).foldl
              (absorbOne M (clDist D (cs.getD i (0, [])).2 (cs.getD j (0, [])).2)
                (indexOfId M (((desc.getD (cs.getD i (0, [])).1 []).min?).getD 0))) res,
             desc ++ [desc.getD (cs.getD i (0, [])).1 [] ++
               desc.getD (cs.getD j (0, [])).1 []]) := by
          simp only [encodeStep, if_neg hcond]
        rw [hstep]
        have hhead2 : (desc.getD (cs.getD i (0, [])).1 []).headD 0 <
            (desc.getD (cs.getD j (0, [])).1 []).headD 0 := by
          have hne2 := desc_head_ne hids inv hAmem hBmem hABne
          omega
        have hinv2 := encStep_inv_core hD hids inv hAmem hBmem hABne hhead2 rfl hminv
          hrest_sub hrest_cover hrest_fst
          hmrg_iff_noswap
          hmrg_nodup hmrg_ne
        exact ih (nextId + 1) (clDist D (cs.getD i (0, [])).2 (cs.getD j (0, [])).2)
          _ _ _ hlen2 hinv2

/-! Generic access lemmas, permutation of the stable sort, and
properties of the allelic distance. -/

theorem getD_set_self_any {α : Type} {l : List α} {x : Nat} (hx : x < l.length)
    (v d : α) : (l.set x v).getD x d = v := by
  rw [List.getD_eq_getElem?_getD, List.getElem?_set_self hx]
  rfl

theorem getD_set_ne_any {α : Type} {l : List α} {x y : Nat} (h : x ≠ y)
    (v d : α) : (l.set x v).getD y d = l.getD y d := by
  rw [List.getD_eq_getElem?_getD, List.getElem?_set_ne h, ← List.getD_eq_getElem?_getD]

theorem getD_map_lt {α β : Type} {l : List α} {f : α → β} {x : Nat}
    (hx : x < l.length) (da : α) (db : β) : (l.map f).getD x db = f (l.getD x da) := by
  rw [List.getD_eq_getElem?_getD, List.getElem?_map, List.getElem?_eq_getElem hx,
    getD_get hx da]
  rfl

theorem headD_eq_getD {α : Type} (l : List α) (d : α) : l.headD d = l.getD 0 d := by
  cases l <;> rfl

theorem insertByKey_perm (key : Profile → Nat) (x : Profile) :
    ∀ l : List Profile, (insertByKey key x l).Perm (x :: l) := by
  intro l
  induction l with
  | nil => exact List.Perm.refl _
  | cons y ys ih =>
    rw [insertByKey]
    by_cases h : key x ≤ key y
    · rw [if_pos h]
    · rw [if_neg h]
      exact List.Perm.trans (List.Perm.cons y ih) (List.Perm.swap x y ys)

theorem stableSortBy_perm (key : Profile → Nat) :
    ∀ l : List Profile, (stableSortBy key l).Perm l := by
  intro l
  induction l with
  | nil => exact List.Perm.refl _
  | cons x xs ih =>
    rw [stableSortBy]
    exact List.Perm.trans (insertByKey_perm key x (stableSortBy key xs))
      (List.Perm.cons x ih)

theorem allelicDist_le_left (xs ys : List Int) : allelicDist xs ys ≤ xs.length := by
  refine le_trans (List.length_filter_le _ _) ?_
  rw [List.length_zip]
  exact min_le_left _ _

theorem allelicDist_comm (xs ys : List Int) : allelicDist xs ys = allelicDist ys xs := by
  unfold allelicDist
  rw [← List.zip_swap xs ys, List.filter_map, List.length_map]
  congr 1
  refine List.filter_congr ?_
  intro pr _
  simp only [Function.comp_apply, Prod.fst_swap, Prod.snd_swap]
  apply decide_eq_decide.2
  constructor
  · rintro ⟨h1, h2, h3⟩
    exact ⟨h2, h1, h3.symm⟩
  · rintro ⟨h1, h2, h3⟩
    exact ⟨h2, h1, h3.symm⟩

theorem profDist_comm (p q : Profile) : profDist p q = profDist q p :=
  allelicDist_comm p.alleles q.alleles

theorem profDist_le (p q : Profile) : profDist p q ≤ p.alleles.length :=
  allelicDist_le_left p.alleles q.alleles

/-! The initial encoder state satisfies the invariant. -/

theorem initRes_getD {M : List Profile} {x : Nat} (hx : x < M.length) :
    (initRes M).getD x [] =
      ((List.replicate (matWidth M + 1) (M.getD x default).id).map
        (fun v => if v < 0 then maxIdVal M + 100 else v)).set 0 (M.getD x default).id := by
  unfold initRes
  rw [getD_map_lt hx default]

theorem initRes_entry {M : List Profile} (hpos : ∀ r ∈ M, 0 < r.id) {x : Nat}
    (hx : x < M.length) {c : Nat} (hc0 : 0 < c) (hcW : c < matWidth M + 1) :
    entry (initRes M) x c = (M.getD x default).id := by
  have hmem : M.getD x default ∈ M := by
    rw [getD_get hx default]
    exact List.getElem_mem hx
  have hpos2 := hpos _ hmem
  rw [entry, initRes_getD hx, getD_set_ne_any (by omega)]
  have hlen : c < ((List.replicate (matWidth M + 1) (M.getD x default).id)).length := by
    rw [List.length_replicate]
    exact hcW
  rw [getD_map_lt hlen 0, getD_get hlen 0, List.getElem_replicate, if_neg (by omega)]

theorem initRes_len {M : List Profile} : (initRes M).length = M.length := by
  unfold initRes
  rw [List.length_map]

theorem initRes_row_len {M : List Profile} {x : Nat} (hx : x < M.length) :
    ((initRes M).getD x []).length = matWidth M + 1 := by
  rw [initRes_getD hx, List.length_set, List.length_map, List.length_replicate]

theorem encInv_init {M : List Profile} {D : Nat → Nat → Nat}
    (hpos : ∀ r ∈ M, 0 < r.id) :
    EncInv M D (matWidth M + 1) ((List.range M.length).map (fun i => (i, [i])))
      (initRes M) (M.map (fun r => [r.id])) M.length 0 := by
  have hcs_mem : ∀ c ∈ (List.range M.length).map (fun i => (i, ([i] : List Nat))),
      ∃ i, i < M.length ∧ c = (i, [i]) := by
    intro c hc
    obtain ⟨i, hi, he⟩ := List.mem_map.1 hc
    exact ⟨i, List.mem_range.1 hi, he.symm⟩
  have hdesc : ∀ i, i < M.length →
      (M.map (fun r => [r.id])).getD i [] = [(M.getD i default).id] := by
    intro i hi
    rw [getD_map_lt hi default]
  refine ⟨initRes_len, fun x hx => initRes_row_len hx, ?_, ?_, ?_, ?_, ?_, ?_, ?_, ?_,
    ?_, ?_, ?_, ?_, ?_, ?_⟩
  · rw [List.length_map]
  · intro c hc
    obtain ⟨i, hi, he⟩ := hcs_mem c hc
    rw [he]
    exact hi
  · have he : ((List.range M.length).map (fun i => (i, ([i] : List Nat)))).map Prod.fst =
        List.range M.length := by
      rw [List.map_map]
      have h : (Prod.fst ∘ fun i : Nat => (i, ([i] : List Nat))) = fun i => i := rfl
      rw [h]
      exact List.map_id' (List.range M.length)
    rw [he]
    exact List.nodup_range _
  · intro c hc x hxc
    obtain ⟨i, hi, he⟩ := hcs_mem c hc
    rw [he] at hxc
    have : x = i := List.mem_singleton.1 hxc
    omega
  · intro c hc
    obtain ⟨i, hi, he⟩ := hcs_mem c hc
    rw [he]
    exact List.cons_ne_nil i []
  · intro c hc
    obtain ⟨i, hi, he⟩ := hcs_mem c hc
    rw [he]
    exact List.nodup_singleton i
  · intro c hc c' hc' hne x hxc hxc'
    obtain ⟨i, hi, he⟩ := hcs_mem c hc
    obtain ⟨i', hi', he'⟩ := hcs_mem c' hc'
    rw [he] at hxc
    rw [he'] at hxc'
    have h1 : x = i := List.mem_singleton.1 hxc
    have h2 : x = i' := List.mem_singleton.1 hxc'
    refine hne ?_
    rw [he, he', ← h1, ← h2]
  · intro x hx
    exact ⟨(x, [x]), List.mem_map.2 ⟨x, List.mem_range.2 hx, rfl⟩, List.mem_singleton_self x⟩
  · intro c hc
    obtain ⟨i, hi, he⟩ := hcs_mem c hc
    rw [he]
    show (M.map (fun r => [r.id])).getD i [] ≠ [] ∧ _
    rw [hdesc i hi]
    refine ⟨List.cons_ne_nil _ [], ?_, rfl⟩
    intro v
    constructor
    · intro hv
      exact ⟨i, List.mem_singleton_self i, (List.mem_singleton.1 hv).symm⟩
    · rintro ⟨y, hy, he2⟩
      have : y = i := List.mem_singleton.1 hy
      rw [List.mem_singleton, ← he2, this]
  · intro c hc
    obtain ⟨i, hi, he⟩ := hcs_mem c hc
    rw [he]
    show ((M.map (fun r => [r.id])).getD i []).Nodup
    rw [hdesc i hi]
    exact List.nodup_singleton _
  · intro c hc c' hc' hne
    exact Nat.zero_le _
  · intro x hx t ht htW
    rw [initRes_entry hpos hx (by omega) (by omega)]
    constructor
    · exact ⟨x, ⟨(x, [x]), List.mem_map.2 ⟨x, List.mem_range.2 hx, rfl⟩,
        List.mem_singleton_self x, List.mem_singleton_self x⟩, rfl⟩
    · rintro v ⟨y, ⟨c, hc, hxc, hyc⟩, he⟩
      obtain ⟨i, hi, he2⟩ := hcs_mem c hc
      rw [he2] at hxc hyc
      have h1 : x = i := List.mem_singleton.1 hxc
      have h2 : y = i := List.mem_singleton.1 hyc
      rw [← he, h1, ← h2]
  · intro x hx t ht
    omega
  · intro x y hsb
    obtain ⟨c, hc, hxc, hyc⟩ := hsb
    obtain ⟨i, hi, he⟩ := hcs_mem c hc
    rw [he] at hxc hyc
    have h1 : x = i := List.mem_singleton.1 hxc
    have h2 : y = i := List.mem_singleton.1 hyc
    rw [h1, h2]
    exact Relation.ReflTransGen.refl

theorem matD_comm (mat : List Profile) : ∀ i j, matD mat i j = matD mat j i := by
  intro i j
  exact profDist_comm _ _

/-- The encoded matrix of a full run: after the single-linkage pass the
entry of row `x` at column `t + 1` is the least id of the profiles
connected to `x` at threshold `t`. -/
theorem encoded_spec {M : List Profile} (hpos : ∀ r ∈ M, 0 < r.id)
    (hids : (M.map (fun r => r.id)).Nodup) :
    (encodeRun M (initRes M) (singleLinkage (matD M) M.length)).1.length = M.length ∧
    (∀ x, x < M.length →
      ((encodeRun M (initRes M) (singleLinkage (matD M) M.length)).1.getD x []).length =
        matWidth M + 1) ∧
    (∀ x, x < M.length → ∀ t, t + 1 < matWidth M + 1 →
      IsLeast (compIds M (matD M) t x)
        (entry (encodeRun M (initRes M) (singleLinkage (matD M) M.length)).1 x (t + 1))) := by
  have hlen0 : ((List.range M.length).map (fun i => (i, ([i] : List Nat)))).length ≤
      M.length + 1 := by
    rw [List.length_map, List.length_range]
    omega
  exact encodeMaster (matD_comm M) hids M.length M.length 0 _ (initRes M)
    (M.map (fun r => [r.id])) hlen0 (encInv_init hpos)

/-! Component-set transfer, the attachment pass of a full run, and
access to the final matrix. -/

theorem compIds_eq_of_conn {M : List Profile} {D : Nat → Nat → Nat}
    (hD : ∀ i j, D i j = D j i) {t x y : Nat}
    (hconn : IdxConn D M.length t x y) :
    compIds M D t x = compIds M D t y := by
  ext i
  constructor
  · rintro ⟨w, hw, hc, he⟩
    exact ⟨w, hw, Relation.ReflTransGen.trans (IdxConn_symm hD hconn) hc, he⟩
  · rintro ⟨w, hw, hc, he⟩
    exact ⟨w, hw, Relation.ReflTransGen.trans hconn hc, he⟩

theorem attachStep_noop {M : List Profile} {res : List (List Int)}
    (hlenAll : ∀ r ∈ M, r.alleles.length + 1 = matWidth M)
    (hcode : ∀ x, x < M.length → ∀ t, t + 1 < matWidth M + 1 →
      IsLeast (compIds M (matD M) t x) (entry res x (t + 1)))
    {id : Nat} (hid : id < M.length) :
    attachStep M 0 res id = res := by
  unfold attachStep
  by_cases h0 : 0 < id + 0
  · rw [if_pos h0]
    have hidpos : 0 < id := by omega
    have hi : argminIdx (fun j => profDist (M.getD (id + 0) default) (M.getD j default))
        (id + 0) < id := by
      have := argminIdx_lt (fun j => profDist (M.getD (id + 0) default) (M.getD j default))
        (id + 0) h0
      omega
    have hilt : argminIdx (fun j => profDist (M.getD (id + 0) default) (M.getD j default))
        (id + 0) < M.length := by omega
    have hmemid : M.getD (id + 0) default ∈ M := by
      rw [getD_get (by omega : id + 0 < M.length) default]
      exact List.getElem_mem (by omega)
    have hminD_lt : profDist (M.getD (id + 0) default)
        (M.getD (argminIdx (fun j => profDist (M.getD (id + 0) default) (M.getD j default))
          (id + 0)) default) + 1 < matWidth M + 1 := by
      have h1 := profDist_le (M.getD (id + 0) default)
        (M.getD (argminIdx (fun j => profDist (M.getD (id + 0) default) (M.getD j default))
          (id + 0)) default)
      have h2 := hlenAll _ hmemid
      omega
    have hconn : IdxConn (matD M) M.length
        (profDist (M.getD (id + 0) default)
          (M.getD (argminIdx (fun j => profDist (M.getD (id + 0) default)
            (M.getD j default)) (id + 0)) default))
        (id + 0)
        (argminIdx (fun j => profDist (M.getD (id + 0) default) (M.getD j default))
          (id + 0)) :=
      Relation.ReflTransGen.single ⟨by omega, hilt, le_refl _⟩
    have h1 := hcode (id + 0) (by omega) _ hminD_lt
    have h2 := hcode _ hilt _ hminD_lt
    rw [compIds_eq_of_conn (matD_comm M) hconn] at h1
    have hEq := IsLeast.unique h1 h2
    rw [if_neg ?_]
    show ¬ ((res.getD (argminIdx (fun j => profDist (M.getD (id + 0) default)
        (M.getD j default)) (id + 0)) []).getD
          (profDist (M.getD (id + 0) default)
            (M.getD (argminIdx (fun j => profDist (M.getD (id + 0) default)
              (M.getD j default)) (id + 0)) default) + 1) 0 <
      (res.getD (id + 0) []).getD
        (profDist (M.getD (id + 0) default)
          (M.getD (argminIdx (fun j => profDist (M.getD (id + 0) default)
            (M.getD j default)) (id + 0)) default) + 1) 0)
    have hEq2 : entry res (id + 0) (profDist (M.getD (id + 0) default)
        (M.getD (argminIdx (fun j => profDist (M.getD (id + 0) default)
          (M.getD j default)) (id + 0)) default) + 1) =
        entry res (argminIdx (fun j => profDist (M.getD (id + 0) default)
          (M.getD j default)) (id + 0)) (profDist (M.getD (id + 0) default)
        (M.getD (argminIdx (fun j => profDist (M.getD (id + 0) default)
          (M.getD j default)) (id + 0)) default) + 1) := hEq
    rw [entry, entry] at hEq2
    rw [← hEq2]
    exact lt_irrefl _
  · rw [if_neg h0]

theorem attachPass_noop {M : List Profile} {res : List (List Int)}
    (hlenAll : ∀ r ∈ M, r.alleles.length + 1 = matWidth M)
    (hcode : ∀ x, x < M.length → ∀ t, t + 1 < matWidth M + 1 →
      IsLeast (compIds M (matD M) t x) (entry res x (t + 1))) :
    attachPass M 0 res = res := by
  unfold attachPass
  have hgen : ∀ l : List Nat, (∀ id ∈ l, id < M.length) →
      l.foldl (attachStep M 0) res = res := by
    intro l
    induction l with
    | nil => intro _; rfl
    | cons a as ih =>
      intro hmem
      rw [List.foldl_cons, attachStep_noop hlenAll hcode (hmem a (List.mem_cons_self a as)),
        ih (fun id hid => hmem id (List.mem_cons_of_mem a hid))]
  refine hgen _ ?_
  intro id hid
  have := List.mem_range.1 hid
  omega

theorem setCol0_length {mat : List Profile} {res : List (List Int)}
    (h : res.length = mat.length) : (setCol0 mat res).length = mat.length := by
  unfold setCol0
  rw [List.length_zipWith, h, min_self]

theorem setCol0_getD {mat : List Profile} {res : List (List Int)} {x : Nat}
    (hx1 : x < mat.length) (hx2 : x < res.length) :
    (setCol0 mat res).getD x [] = (res.getD x []).set 0 (mat.getD x default).id := by
  unfold setCol0
  have hlt : x < (List.zipWith (fun (r : Profile) (row : List Int) => row.set 0 r.id)
      mat res).length := by
    rw [List.length_zipWith]
    omega
  rw [getD_get hlt [], List.getElem_zipWith, getD_get hx1 default, getD_get hx2 []]

theorem findRow_eq {res : List (List Int)} {pid : Int} :
    ∀ x : Nat, x < res.length → (res.getD x []).headD 0 = pid →
    (∀ y, y < x → (res.getD y []).headD 0 ≠ pid) →
    findRow res pid = res.getD x [] := by
  induction res with
  | nil =>
    intro x hx
    cases hx
  | cons r rs ih =>
    intro x hx hhead hbefore
    match x with
    | 0 =>
      have : r.headD 0 = pid := hhead
      unfold findRow
      rw [List.find?_cons_of_pos _ (by simpa using this)]
      rfl
    | x' + 1 =>
      have hne : r.headD 0 ≠ pid := hbefore 0 (by omega)
      unfold findRow
      rw [List.find?_cons_of_neg _ (by simpa using hne)]
      have := ih x' (by simpa using Nat.lt_of_succ_lt_succ hx) hhead
        (fun y hy => hbefore (y + 1) (by omega))
      unfold findRow at this
      exact this

/-! Assembly of the full run: the attachment pass is the identity and
the final matrix holds, at column `t + 1` of each row, the least id of
the row's component at threshold `t`. -/

theorem hierCC_full_eq (rows : List Profile) :
    hierCC_full rows =
      setCol0 (stableSortBy absence (prepare_mat rows))
        (attachPass (stableSortBy absence (prepare_mat rows)) 0
          (encodeRun (stableSortBy absence (prepare_mat rows))
            (initRes (stableSortBy absence (prepare_mat rows)))
            (singleLinkage (matD (stableSortBy absence (prepare_mat rows)))
              (stableSortBy absence (prepare_mat rows)).length)).1) := rfl

theorem sorted_mem_prepare {rows : List Profile} {r : Profile}
    (hr : r ∈ stableSortBy absence (prepare_mat rows)) : r ∈ prepare_mat rows :=
  (stableSortBy_perm absence (prepare_mat rows)).subset hr

theorem prepare_pos {rows : List Profile} {r : Profile} (hr : r ∈ prepare_mat rows) :
    0 < r.id := by
  have := List.mem_filter.1 hr
  simpa using this.2

theorem prepare_sub {rows : List Profile} {r : Profile} (hr : r ∈ prepare_mat rows) :
    r ∈ rows :=
  (List.filter_sublist rows).subset hr

theorem sorted_ids_nodup {rows : List Profile}
    (hids : ((prepare_mat rows).map (fun r => r.id)).Nodup) :
    ((stableSortBy absence (prepare_mat rows)).map (fun r => r.id)).Nodup :=
  ((List.Perm.map (fun r => r.id)
    (stableSortBy_perm absence (prepare_mat rows))).nodup_iff).2 hids

theorem sorted_len_all {rows : List Profile} {A : Nat}
    (hlen : ∀ r ∈ rows, r.alleles.length = A) :
    ∀ r ∈ stableSortBy absence (prepare_mat rows),
      r.alleles.length + 1 = matWidth (stableSortBy absence (prepare_mat rows)) := by
  intro r hr
  have hrA : r.alleles.length = A := hlen r (prepare_sub (sorted_mem_prepare hr))
  unfold matWidth
  cases hM : stableSortBy absence (prepare_mat rows) with
  | nil =>
    rw [hM] at hr
    cases hr
  | cons h tl =>
    have hhead : h ∈ stableSortBy absence (prepare_mat rows) := by
      rw [hM]
      exact List.mem_cons_self h tl
    have hA : h.alleles.length = A := hlen h (prepare_sub (sorted_mem_prepare hhead))
    simp only [List.headD_cons]
    omega

theorem full_run_index_spec {rows : List Profile} {A : Nat}
    (hlen : ∀ r ∈ rows, r.alleles.length = A)
    (hids : ((prepare_mat rows).map (fun r => r.id)).Nodup) :
    (hierCC_full rows).length = (stableSortBy absence (prepare_mat rows)).length ∧
    (∀ x, x < (stableSortBy absence (prepare_mat rows)).length →
      ((hierCC_full rows).getD x []).headD 0 =
        ((stableSortBy absence (prepare_mat rows)).getD x default).id) ∧
    (∀ x, x < (stableSortBy absence (prepare_mat rows)).length →
      ∀ t, t + 1 < matWidth (stableSortBy absence (prepare_mat rows)) + 1 →
        IsLeast
          (compIds (stableSortBy absence (prepare_mat rows))
            (matD (stableSortBy absence (prepare_mat rows))) t x)
          (entry (hierCC_full rows) x (t + 1))) := by
  have hposM : ∀ r ∈ stableSortBy absence (prepare_mat rows), 0 < r.id :=
    fun r hr => prepare_pos (sorted_mem_prepare hr)
  have hidsM := sorted_ids_nodup hids
  obtain ⟨hRlen, hRrow, hRcode⟩ := encoded_spec hposM hidsM
  have hnoop := attachPass_noop (sorted_len_all hlen) hRcode
  rw [hierCC_full_eq rows, hnoop]
  refine ⟨setCol0_length hRlen, ?_, ?_⟩
  · intro x hx
    rw [setCol0_getD hx (by omega), headD_eq_getD, getD_set_self_any]
    rw [hRrow x hx]
    omega
  · intro x hx t htW
    have he : entry (setCol0 (stableSortBy absence (prepare_mat rows))
        (encodeRun (stableSortBy absence (prepare_mat rows))
          (initRes (stableSortBy absence (prepare_mat rows)))
          (singleLinkage (matD (stableSortBy absence (prepare_mat rows)))
            (stableSortBy absence (prepare_mat rows)).length)).1) x (t + 1) =
        entry (encodeRun (stableSortBy absence (prepare_mat rows))
          (initRes (stableSortBy absence (prepare_mat rows)))
          (singleLinkage (matD (stableSortBy absence (prepare_mat rows)))
            (stableSortBy absence (prepare_mat rows)).length)).1 x (t + 1) := by
      rw [entry, entry, setCol0_getD hx (by omega), getD_set_ne_any (by omega)]
    rw [he]
    exact hRcode x hx t htW

/-! Transfer between value-level connectivity over the prepared profile
list and index-level connectivity over the sorted working matrix. -/

theorem mem_sorted_of_prepare {rows : List Profile} {p : Profile}
    (hp : p ∈ prepare_mat rows) : p ∈ stableSortBy absence (prepare_mat rows) :=
  ((stableSortBy_perm absence (prepare_mat rows)).mem_iff).2 hp

theorem conn_of_idx {rows : List Profile} {t x y : Nat}
    (h : IdxConn (matD (stableSortBy absence (prepare_mat rows)))
      (stableSortBy absence (prepare_mat rows)).length t x y) :
    x < (stableSortBy absence (prepare_mat rows)).length →
    Conn (prepare_mat rows) t
      ((stableSortBy absence (prepare_mat rows)).getD x default)
      ((stableSortBy absence (prepare_mat rows)).getD y default) := by
  induction h with
  | refl => intro _; exact Relation.ReflTransGen.refl
  | tail hconn hstep ih =>
    intro hx
    refine Relation.ReflTransGen.tail (ih hx) ?_
    obtain ⟨hu, hv, hd⟩ := hstep
    refine ⟨?_, ?_, hd⟩
    · exact sorted_mem_prepare (by rw [getD_get hu default]; exact List.getElem_mem hu)
    · exact sorted_mem_prepare (by rw [getD_get hv default]; exact List.getElem_mem hv)

theorem idx_of_conn {rows : List Profile}
    (hids : ((prepare_mat rows).map (fun r => r.id)).Nodup) {t : Nat} {p q : Profile}
    (h : Conn (prepare_mat rows) t p q) :
    ∀ x y, x < (stableSortBy absence (prepare_mat rows)).length →
      y < (stableSortBy absence (prepare_mat rows)).length →
      (stableSortBy absence (prepare_mat rows)).getD x default = p →
      (stableSortBy absence (prepare_mat rows)).getD y default = q →
      IdxConn (matD (stableSortBy absence (prepare_mat rows)))
        (stableSortBy absence (prepare_mat rows)).length t x y := by
  have hidsM := sorted_ids_nodup hids
  induction h with
  | refl =>
    intro x y hx hy hex hey
    have hxy : x = y := id_inj hidsM hx hy (by rw [hex, hey])
    rw [hxy]
    exact Relation.ReflTransGen.refl
  | tail hconn hstep ih =>
    rename_i b c
    intro x y hx hy hex hey
    have hbM : b ∈ stableSortBy absence (prepare_mat rows) :=
      mem_sorted_of_prepare hstep.1
    obtain ⟨xb, hxb, hexb⟩ := List.mem_iff_getElem.1 hbM
    have hexb2 : (stableSortBy absence (prepare_mat rows)).getD xb default = b := by
      rw [getD_get hxb default]
      exact hexb
    refine Relation.ReflTransGen.tail (ih x xb hx hxb hex hexb2) ⟨hxb, hy, ?_⟩
    show matD (stableSortBy absence (prepare_mat rows)) xb y ≤ t
    unfold matD
    rw [hexb2, hey]
    exact hstep.2.2

theorem findRow_full {rows : List Profile} {A : Nat}
    (hlen : ∀ r ∈ rows, r.alleles.length = A)
    (hids : ((prepare_mat rows).map (fun r => r.id)).Nodup) {x : Nat}
    (hx : x < (stableSortBy absence (prepare_mat rows)).length) :
    findRow (hierCC_full rows)
        ((stableSortBy absence (prepare_mat rows)).getD x default).id =
      (hierCC_full rows).getD x [] := by
  obtain ⟨hL, hH, _⟩ := full_run_index_spec hlen hids
  have hidsM := sorted_ids_nodup hids
  refine findRow_eq x (by omega) (hH x hx) ?_
  intro y hy hne
  rw [hH y (by omega)] at hne
  have : y = x := id_inj hidsM (by omega) hx hne
  omega

theorem full_entry_eq_iff {rows : List Profile} {A : Nat}
    (hlen : ∀ r ∈ rows, r.alleles.length = A)
    (hids : ((prepare_mat rows).map (fun r => r.id)).Nodup) {x y t : Nat}
    (hx : x < (stableSortBy absence (prepare_mat rows)).length)
    (hy : y < (stableSortBy absence (prepare_mat rows)).length)
    (htW : t + 1 < matWidth (stableSortBy absence (prepare_mat rows)) + 1) :
    entry (hierCC_full rows) x (t + 1) = entry (hierCC_full rows) y (t + 1) ↔
      IdxConn (matD (stableSortBy absence (prepare_mat rows)))
        (stableSortBy absence (prepare_mat rows)).length t x y := by
  obtain ⟨hL, hH, hC⟩ := full_run_index_spec hlen hids
  have hidsM := sorted_ids_nodup hids
  constructor
  · intro he
    have h1 := hC x hx t htW
    have h2 := hC y hy t htW
    rw [he] at h1
    obtain ⟨z1, hz1, hc1, hid1⟩ := h1.1
    obtain ⟨z2, hz2, hc2, hid2⟩ := h2.1
    have hz : z1 = z2 := id_inj hidsM hz1 hz2 (by rw [hid1, hid2])
    refine Relation.ReflTransGen.trans hc1 ?_
    rw [hz]
    exact IdxConn_symm (matD_comm _) hc2
  · intro hconn
    have h1 := hC x hx t htW
    have h2 := hC y hy t htW
    rw [compIds_eq_of_conn (matD_comm _) hconn] at h1
    exact IsLeast.unique h1 h2

theorem matWidth_sorted {rows : List Profile} {A : Nat}
    (hlen : ∀ r ∈ rows, r.alleles.length = A) {p : Profile}
    (hpM : p ∈ stableSortBy absence (prepare_mat rows)) :
    matWidth (stableSortBy absence (prepare_mat rows)) = A + 1 := by
  cases hM : stableSortBy absence (prepare_mat rows) with
  | nil =>
    rw [hM] at hpM
    cases hpM
  | cons h tl =>
    have hhm : h ∈ stableSortBy absence (prepare_mat rows) := by
      rw [hM]
      exact List.mem_cons_self h tl
    unfold matWidth
    simp only [List.headD_cons]
    rw [hlen h (prepare_sub (sorted_mem_prepare hhm))]

/-- C1: in a full run with well-formed input (equal row lengths and
pairwise-distinct positive ids), two profiles carry the same code at
threshold `t` exactly when they are single-linkage connected at allelic
distance at most `t`, and each profile's code at threshold `t` is the
least id among the profiles connected to it at distance at most `t`. -/
theorem full_run_codes (A : Nat) (rows : List Profile)
    (hlen : ∀ r ∈ rows, r.alleles.length = A)
    (hids : ((prepare_mat rows).map (fun r => r.id)).Nodup)
    (p q : Profile) (hp : p ∈ prepare_mat rows) (hq : q ∈ prepare_mat rows)
    (t : Nat) (ht : t ≤ A) :
    (codeAt (hierCC_full rows) p.id t = codeAt (hierCC_full rows) q.id t ↔
      Conn (prepare_mat rows) t p q) ∧
    IsLeast {i : Int | ∃ r ∈ prepare_mat rows, Conn (prepare_mat rows) t p r ∧ r.id = i}
      (codeAt (hierCC_full rows) p.id t) := by
  have hpM := mem_sorted_of_prepare hp
  have hqM := mem_sorted_of_prepare hq
  obtain ⟨xp, hxp, hexp⟩ := List.mem_iff_getElem.1 hpM
  obtain ⟨xq, hxq, hexq⟩ := List.mem_iff_getElem.1 hqM
  have hexp2 : (stableSortBy absence (prepare_mat rows)).getD xp default = p := by
    rw [getD_get hxp default]
    exact hexp
  have hexq2 : (stableSortBy absence (prepare_mat rows)).getD xq default = q := by
    rw [getD_get hxq default]
    exact hexq
  have hWM := matWidth_sorted hlen hpM
  have htW : t + 1 < matWidth (stableSortBy absence (prepare_mat rows)) + 1 := by omega
  have hcp : codeAt (hierCC_full rows) p.id t = entry (hierCC_full rows) xp (t + 1) := by
    rw [codeAt, ← hexp2, findRow_full hlen hids hxp]
    rfl
  have hcq : codeAt (hierCC_full rows) q.id t = entry (hierCC_full rows) xq (t + 1) := by
    rw [codeAt, ← hexq2, findRow_full hlen hids hxq]
    rfl
  obtain ⟨hL, hH, hC⟩ := full_run_index_spec hlen hids
  have hset : compIds (stableSortBy absence (prepare_mat rows))
      (matD (stableSortBy absence (prepare_mat rows))) t xp =
      {i : Int | ∃ r ∈ prepare_mat rows, Conn (prepare_mat rows) t p r ∧ r.id = i} := by
    ext i
    constructor
    · rintro ⟨y, hy, hconn, he⟩
      refine ⟨(stableSortBy absence (prepare_mat rows)).getD y default,
        sorted_mem_prepare (by rw [getD_get hy default]; exact List.getElem_mem hy), ?_, he⟩
      have := conn_of_idx hconn hxp
      rw [hexp2] at this
      exact this
    · rintro ⟨r, hr, hconn, he⟩
      obtain ⟨yr, hyr, heyr⟩ := List.mem_iff_getElem.1 (mem_sorted_of_prepare hr)
      have heyr2 : (stableSortBy absence (prepare_mat rows)).getD yr default = r := by
        rw [getD_get hyr default]
        exact heyr
      refine ⟨yr, hyr, idx_of_conn hids hconn xp yr hxp hyr hexp2 heyr2, by rw [heyr2]; exact he⟩
  constructor
  · rw [hcp, hcq, full_entry_eq_iff hlen hids hxp hxq htW]
    constructor
    · intro h
      have := conn_of_idx h hxp
      rw [hexp2, hexq2] at this
      exact this
    · intro h
      exact idx_of_conn hids h xp xq hxp hxq hexp2 hexq2
  · rw [hcp, ← hset]
    exact hC xp hxp t htW

theorem full_run_codes_witness :
    (∀ r ∈ exampleRows, r.alleles.length = 3) ∧
    ((prepare_mat exampleRows).map (fun r => r.id)).Nodup ∧
    (⟨1, [1, 1, 1]⟩ : Profile) ∈ prepare_mat exampleRows ∧
    (⟨2, [1, 1, 2]⟩ : Profile) ∈ prepare_mat exampleRows ∧ (1 : Nat) ≤ 3 ∧
    ((codeAt (hierCC_full exampleRows) 1 1 = codeAt (hierCC_full exampleRows) 2 1 ↔
      Conn (prepare_mat exampleRows) 1 ⟨1, [1, 1, 1]⟩ ⟨2, [1, 1, 2]⟩) ∧
    IsLeast {i : Int | ∃ r ∈ prepare_mat exampleRows,
        Conn (prepare_mat exampleRows) 1 ⟨1, [1, 1, 1]⟩ r ∧ r.id = i}
      (codeAt (hierCC_full exampleRows) 1 1)) :=
  ⟨by decide, by decide, by decide, by decide, by decide,
    full_run_codes 3 exampleRows (by decide) (by decide) ⟨1, [1, 1, 1]⟩ ⟨2, [1, 1, 2]⟩
      (by decide) (by decide) 1 (by decide)⟩

/-- C8 (amended): in a full run whose retained profiles have pairwise
distinct ids, the nearest-neighbour attachment pass never finds its
overwrite condition true: for every row `id > 0` the encoded code at
column `minD + 1` is never strictly greater than the nearest
neighbour's, and the pass returns the encoded matrix unchanged. (With a
duplicated id the overwrite does fire; see the counterexample.) -/
theorem attach_pass_frame_full (A : Nat) (rows : List Profile)
    (hlen : ∀ r ∈ rows, r.alleles.length = A)
    (hids : ((prepare_mat rows).map (fun r => r.id)).Nodup) :
    attachPass (stableSortBy absence (prepare_mat rows)) 0
      (encodeRun (stableSortBy absence (prepare_mat rows))
        (initRes (stableSortBy absence (prepare_mat rows)))
        (singleLinkage (matD (stableSortBy absence (prepare_mat rows)))
          (stableSortBy absence (prepare_mat rows)).length)).1 =
      (encodeRun (stableSortBy absence (prepare_mat rows))
        (initRes (stableSortBy absence (prepare_mat rows)))
        (singleLinkage (matD (stableSortBy absence (prepare_mat rows)))
          (stableSortBy absence (prepare_mat rows)).length)).1 ∧
    (∀ id, 0 < id → id < (stableSortBy absence (prepare_mat rows)).length →
      entry (encodeRun (stableSortBy absence (prepare_mat rows))
          (initRes (stableSortBy absence (prepare_mat rows)))
          (singleLinkage (matD (stableSortBy absence (prepare_mat rows)))
            (stableSortBy absence (prepare_mat rows)).length)).1 id
        (matD (stableSortBy absence (prepare_mat rows)) id
          (argminIdx (matD (stableSortBy absence (prepare_mat rows)) id) id) + 1) ≤
      entry (encodeRun (stableSortBy absence (prepare_mat rows))
          (initRes (stableSortBy absence (prepare_mat rows)))
          (singleLinkage (matD (stableSortBy absence (prepare_mat rows)))
            (stableSortBy absence (prepare_mat rows)).length)).1
        (argminIdx (matD (stableSortBy absence (prepare_mat rows)) id) id)
        (matD (stableSortBy absence (prepare_mat rows)) id
          (argminIdx (matD (stableSortBy absence (prepare_mat rows)) id) id) + 1)) := by
  have hposM : ∀ r ∈ stableSortBy absence (prepare_mat rows), 0 < r.id :=
    fun r hr => prepare_pos (sorted_mem_prepare hr)
  have hidsM := sorted_ids_nodup hids
  obtain ⟨hRlen, hRrow, hRcode⟩ := encoded_spec hposM hidsM
  refine ⟨attachPass_noop (sorted_len_all hlen) hRcode, ?_⟩
  intro id h0 hid
  have hi : argminIdx (matD (stableSortBy absence (prepare_mat rows)) id) id < id :=
    argminIdx_lt _ id h0
  have hilt : argminIdx (matD (stableSortBy absence (prepare_mat rows)) id) id <
      (stableSortBy absence (prepare_mat rows)).length := by omega
  have hmemid : (stableSortBy absence (prepare_mat rows)).getD id default ∈
      stableSortBy absence (prepare_mat rows) := by
    rw [getD_get hid default]
    exact List.getElem_mem hid
  have htW : matD (stableSortBy absence (prepare_mat rows)) id
      (argminIdx (matD (stableSortBy absence (prepare_mat rows)) id) id) + 1 <
      matWidth (stableSortBy absence (prepare_mat rows)) + 1 := by
    have h1 : matD (stableSortBy absence (prepare_mat rows)) id
        (argminIdx (matD (stableSortBy absence (prepare_mat rows)) id) id) ≤
        ((stableSortBy absence (prepare_mat rows)).getD id default).alleles.length :=
      profDist_le _ _
    have h2 := sorted_len_all hlen _ hmemid
    omega
  have hconn : IdxConn (matD (stableSortBy absence (prepare_mat rows)))
      (stableSortBy absence (prepare_mat rows)).length
      (matD (stableSortBy absence (prepare_mat rows)) id
        (argminIdx (matD (stableSortBy absence (prepare_mat rows)) id) id))
      id (argminIdx (matD (stableSortBy absence (prepare_mat rows)) id) id) :=
    Relation.ReflTransGen.single ⟨hid, hilt, le_refl _⟩
  have h1 := hRcode id hid _ htW
  have h2 := hRcode _ hilt _ htW
  rw [compIds_eq_of_conn (matD_comm _) hconn] at h1
  exact le_of_eq (IsLeast.unique h1 h2)

theorem attach_pass_frame_full_witness :
    (∀ r ∈ exampleRows, r.alleles.length = 3) ∧
    ((prepare_mat exampleRows).map (fun r => r.id)).Nodup ∧
    (attachPass (stableSortBy absence (prepare_mat exampleRows)) 0
        (encodeRun (stableSortBy absence (prepare_mat exampleRows))
          (initRes (stableSortBy absence (prepare_mat exampleRows)))
          (singleLinkage (matD (stableSortBy absence (prepare_mat exampleRows)))
            (stableSortBy absence (prepare_mat exampleRows)).length)).1 =
      (encodeRun (stableSortBy absence (prepare_mat exampleRows))
        (initRes (stableSortBy absence (prepare_mat exampleRows)))
        (singleLinkage (matD (stableSortBy absence (prepare_mat exampleRows)))
          (stableSortBy absence (prepare_mat exampleRows)).length)).1 ∧
    (∀ id, 0 < id → id < (stableSortBy absence (prepare_mat exampleRows)).length →
      entry (encodeRun (stableSortBy absence (prepare_mat exampleRows))
          (initRes (stableSortBy absence (prepare_mat exampleRows)))
          (singleLinkage (matD (stableSortBy absence (prepare_mat exampleRows)))
            (stableSortBy absence (prepare_mat exampleRows)).length)).1 id
        (matD (stableSortBy absence (prepare_mat exampleRows)) id
          (argminIdx (matD (stableSortBy absence (prepare_mat exampleRows)) id) id) + 1) ≤
      entry (encodeRun (stableSortBy absence (prepare_mat exampleRows))
          (initRes (stableSortBy absence (prepare_mat exampleRows)))
          (singleLinkage (matD (stableSortBy absence (prepare_mat exampleRows)))
            (stableSortBy absence (prepare_mat exampleRows)).length)).1
        (argminIdx (matD (stableSortBy absence (prepare_mat exampleRows)) id) id)
        (matD (stableSortBy absence (prepare_mat exampleRows)) id
          (argminIdx (matD (stableSortBy absence (prepare_mat exampleRows)) id) id) + 1))) :=
  ⟨by decide, by decide, attach_pass_frame_full 3 exampleRows (by decide) (by decide)⟩

/-! Length preservation of every pipeline stage (no input is ever
rejected), and the invariant that every entry of the matrix is the id
of some input profile. -/

theorem encode_fold_len (M : List Profile) :
    ∀ events : List (Nat × Nat × Nat), ∀ st : List (List Int) × List (List Int),
      ((events.foldl (encodeStep M) st).1).length = st.1.length := by
  intro events
  induction events with
  | nil => intro st; rfl
  | cons ev evs ih =>
    intro st
    rw [List.foldl_cons, ih]
    show ((st.2.getD _ []).foldl (absorbOne M _ _) st.1).length = st.1.length
    rw [absorb_fold_length]

theorem attachStep_len (M : List Profile) (s : Nat) (res : List (List Int)) (id : Nat) :
    (attachStep M s res id).length = res.length := by
  unfold attachStep
  by_cases h0 : 0 < id + s
  · rw [if_pos h0]
    by_cases hlt : (res.getD (argminIdx
        (fun j => profDist (M.getD (id + s) default) (M.getD j default)) (id + s)) []).getD
          (profDist (M.getD (id + s) default)
            (M.getD (argminIdx (fun j => profDist (M.getD (id + s) default)
              (M.getD j default)) (id + s)) default) + 1) 0 <
        (res.getD (id + s) []).getD
          (profDist (M.getD (id + s) default)
            (M.getD (argminIdx (fun j => profDist (M.getD (id + s) default)
              (M.getD j default)) (id + s)) default) + 1) 0
    · rw [if_pos hlt, List.length_set]
    · rw [if_neg hlt]
  · rw [if_neg h0]

theorem attachPass_len (M : List Profile) (s : Nat) (res : List (List Int)) :
    (attachPass M s res).length = res.length := by
  unfold attachPass
  have hgen : ∀ l : List Nat, ∀ r : List (List Int),
      (l.foldl (attachStep M s) r).length = r.length := by
    intro l
    induction l with
    | nil => intro r; rfl
    | cons a as ih =>
      intro r
      rw [List.foldl_cons, ih, attachStep_len]
  exact hgen _ res

/-- C7 (amended): the engine performs no id or shape validation; for
every input list the full run completes and returns exactly one output
row per retained profile (those with positive id), duplicates
included. -/
theorem full_run_total (rows : List Profile) :
    (hierCC_full rows).length = (prepare_mat rows).length := by
  have h1 : (attachPass (stableSortBy absence (prepare_mat rows)) 0
      (encodeRun (stableSortBy absence (prepare_mat rows))
        (initRes (stableSortBy absence (prepare_mat rows)))
        (singleLinkage (matD (stableSortBy absence (prepare_mat rows)))
          (stableSortBy absence (prepare_mat rows)).length)).1).length =
      (stableSortBy absence (prepare_mat rows)).length := by
    rw [attachPass_len]
    show (((singleLinkage (matD (stableSortBy absence (prepare_mat rows)))
        (stableSortBy absence (prepare_mat rows)).length).foldl
          (encodeStep (stableSortBy absence (prepare_mat rows)))
          (initRes (stableSortBy absence (prepare_mat rows)),
            (stableSortBy absence (prepare_mat rows)).map (fun r => [r.id]))).1).length = _
    rw [encode_fold_len, initRes_len]
  rw [hierCC_full_eq rows, setCol0_length h1,
    (stableSortBy_perm absence (prepare_mat rows)).length_eq]

theorem allEntries_getD {P : Int → Prop} {res : List (List Int)}
    (h : ∀ row ∈ res, ∀ v ∈ row, P v) (i : Nat) : ∀ v ∈ res.getD i [], P v := by
  by_cases hi : i < res.length
  · rw [getD_get hi []]
    exact h _ (List.getElem_mem hi)
  · rw [List.getD_eq_getElem?_getD, List.getElem?_eq_none (by omega)]
    intro v hv
    cases hv

theorem allEntries_set {P : Int → Prop} {res : List (List Int)}
    (h : ∀ row ∈ res, ∀ v ∈ row, P v) {newRow : List Int}
    (hv : ∀ v ∈ newRow, P v) (i : Nat) :
    ∀ row ∈ res.set i newRow, ∀ v ∈ row, P v := by
  intro row hrow
  rcases List.mem_or_eq_of_mem_set hrow with h2 | h2
  · exact h row h2
  · rw [h2]
    exact hv

theorem allEntries_copy {P : Int → Prop} {res : List (List Int)}
    (h : ∀ row ∈ res, ∀ v ∈ row, P v) (i j k : Nat) :
    ∀ v ∈ (res.getD i []).take k ++ (res.getD j []).drop k, P v := by
  intro v hv
  rcases List.mem_append.1 hv with h2 | h2
  · exact allEntries_getD h i v (List.mem_of_mem_take h2)
  · exact allEntries_getD h j v (List.mem_of_mem_drop h2)

theorem allEntries_absorb_fold {P : Int → Prop} {M : List Profile} {d anchor : Nat}
    (tgts : List Int) :
    ∀ res : List (List Int), (∀ row ∈ res, ∀ v ∈ row, P v) →
      ∀ row ∈ tgts.foldl (absorbOne M d anchor) res, ∀ v ∈ row, P v := by
  induction tgts with
  | nil => intro res h; exact h
  | cons t ts ih =>
    intro res h
    rw [List.foldl_cons]
    exact ih _ (allEntries_set h (allEntries_copy h _ _ _) _)

theorem allEntries_encode_fold {P : Int → Prop} {M : List Profile}
    (events : List (Nat × Nat × Nat)) :
    ∀ st : List (List Int) × List (List Int), (∀ row ∈ st.1, ∀ v ∈ row, P v) →
      ∀ row ∈ (events.foldl (encodeStep M) st).1, ∀ v ∈ row, P v := by
  induction events with
  | nil => intro st h; exact h
  | cons ev evs ih =>
    intro st h
    rw [List.foldl_cons]
    exact ih _ (allEntries_absorb_fold _ _ h)

theorem allEntries_attach_fold {P : Int → Prop} {M : List Profile} {s : Nat}
    (ids : List Nat) :
    ∀ res : List (List Int), (∀ row ∈ res, ∀ v ∈ row, P v) →
      ∀ row ∈ ids.foldl (attachStep M s) res, ∀ v ∈ row, P v := by
  induction ids with
  | nil => intro res h; exact h
  | cons a as ih =>
    intro res h
    rw [List.foldl_cons]
    refine ih _ ?_
    unfold attachStep
    by_cases h0 : 0 < a + s
    · rw [if_pos h0]
      by_cases hlt : (res.getD (argminIdx
          (fun j => profDist (M.getD (a + s) default) (M.getD j default)) (a + s)) []).getD
            (profDist (M.getD (a + s) default)
              (M.getD (argminIdx (fun j => profDist (M.getD (a + s) default)
                (M.getD j default)) (a + s)) default) + 1) 0 <
          (res.getD (a + s) []).getD
            (profDist (M.getD (a + s) default)
              (M.getD (argminIdx (fun j => profDist (M.getD (a + s) default)
                (M.getD j default)) (a + s)) default) + 1) 0
      · rw [if_pos hlt]
        exact allEntries_set h (allEntries_copy h _ _ _) _
      · rw [if_neg hlt]
        exact h
    · rw [if_neg h0]
      exact h

theorem allEntries_setCol0 {P : Int → Prop} {M : List Profile} {res : List (List Int)}
    (h : ∀ row ∈ res, ∀ v ∈ row, P v) (hid : ∀ r ∈ M, P r.id) :
    ∀ row ∈ setCol0 M res, ∀ v ∈ row, P v := by
  intro row hrow v hv
  unfold setCol0 at hrow
  obtain ⟨x, hx, he⟩ := List.mem_iff_getElem.1 hrow
  rw [List.getElem_zipWith] at he
  rw [← he] at hv
  have hxM : x < M.length := by
    rw [List.length_zipWith] at hx
    omega
  have hxR : x < res.length := by
    rw [List.length_zipWith] at hx
    omega
  rcases List.mem_or_eq_of_mem_set hv with h2 | h2
  · exact h _ (List.getElem_mem hxR) v h2
  · rw [h2]
    exact hid _ (List.getElem_mem hxM)

theorem allEntries_initRes {P : Int → Prop} {M : List Profile}
    (hid : ∀ r ∈ M, P r.id) (hpos : ∀ r ∈ M, 0 < r.id) :
    ∀ row ∈ initRes M, ∀ v ∈ row, P v := by
  intro row hrow v hv
  unfold initRes at hrow
  obtain ⟨r, hr, he⟩ := List.mem_map.1 hrow
  rw [← he] at hv
  rcases List.mem_or_eq_of_mem_set hv with h2 | h2
  · obtain ⟨w, hw, he2⟩ := List.mem_map.1 h2
    have hw2 : w = r.id := List.eq_of_mem_replicate hw
    rw [← he2, hw2, if_neg (by have := hpos r hr; omega)]
    exact hid r hr
  · rw [h2]
    exact hid r hr

/-- C10: in a full run, every entry of the output matrix is the id of
some input profile with positive id: rows start as the profile's own id
and every overwrite copies values already present in other rows. -/
theorem full_run_entries_are_ids (rows : List Profile) :
    ∀ row ∈ hierCC_full rows, ∀ v ∈ row, ∃ r ∈ rows, 0 < r.id ∧ r.id = v := by
  have hid : ∀ r ∈ stableSortBy absence (prepare_mat rows),
      ∃ r2 ∈ rows, 0 < r2.id ∧ r2.id = r.id := by
    intro r hr
    exact ⟨r, prepare_sub (sorted_mem_prepare hr), prepare_pos (sorted_mem_prepare hr), rfl⟩
  have hpos : ∀ r ∈ stableSortBy absence (prepare_mat rows), 0 < r.id :=
    fun r hr => prepare_pos (sorted_mem_prepare hr)
  rw [hierCC_full_eq rows]
  refine allEntries_setCol0 ?_ hid
  refine allEntries_attach_fold _ _ ?_
  exact allEntries_encode_fold _ _ (allEntries_initRes hid hpos)

theorem full_run_entries_are_ids_witness :
    [2, 2, 1, 1, 1] ∈ hierCC_full exampleRows ∧ (2 : Int) ∈ [2, 2, 1, 1, 1] ∧
    ∃ r ∈ exampleRows, 0 < r.id ∧ r.id = (2 : Int) :=
  ⟨by decide, by decide,
    full_run_entries_are_ids exampleRows [2, 2, 1, 1, 1] (by decide) 2 (by decide)⟩

/-! Infrastructure for the append (incremental) mode. -/

theorem typedIdx_spec {snap : List (List Int)} {c : Int} {k : Nat}
    (h : typedIdx snap c = some k) :
    k < snap.length ∧ snapHead (snap.getD k []) = c ∧ 0 < c := by
  unfold typedIdx at h
  by_cases hc : 0 < c
  · rw [if_pos hc] at h
    obtain ⟨ys, hys⟩ := List.getLast?_eq_some_iff.1 h
    have hk : k ∈ (List.range snap.length).filter
        (fun i => snapHead (snap.getD i []) = c) := by
      rw [hys]
      exact List.mem_append_right _ (List.mem_singleton_self _)
    have h2 := List.mem_filter.1 hk
    exact ⟨List.mem_range.1 h2.1, by simpa using h2.2, hc⟩
  · rw [if_neg hc] at h
    cases h

theorem hasTyped_of_typedIdx {snap : List (List Int)} {c : Int} {k : Nat}
    (h : typedIdx snap c = some k) : hasTyped snap = true := by
  obtain ⟨hlen, hhead, hpos⟩ := typedIdx_spec h
  unfold hasTyped
  rw [List.any_eq_true]
  refine ⟨snap.getD k [], ?_, ?_⟩
  · rw [getD_get hlen []]
    exact List.getElem_mem hlen
  · rw [hhead]
    exact decide_eq_true hpos

theorem isTyped_some {snap : List (List Int)} {c : Int} (h : isTyped snap c = true) :
    ∃ k, typedIdx snap c = some k := by
  unfold isTyped at h
  exact Option.isSome_iff_exists.1 h

theorem isTyped_none {snap : List (List Int)} {c : Int} (h : isTyped snap c = false) :
    typedIdx snap c = none := by
  unfold isTyped at h
  exact Option.not_isSome_iff_eq_none.1 (by rw [h]; exact Bool.false_ne_true)

theorem initRes_head {M : List Profile} {x : Nat} (hx : x < M.length) :
    ((initRes M).getD x []).headD 0 = (M.getD x default).id := by
  rw [initRes_getD hx, headD_eq_getD, getD_set_self_any]
  rw [List.length_map, List.length_replicate]
  omega

theorem applySnap_len (snap : List (List Int)) (res : List (List Int)) :
    (applySnap snap res).length = res.length := by
  unfold applySnap
  rw [List.length_map]

theorem applySnap_typed {snap res : List (List Int)} {x : Nat} (hx : x < res.length)
    {k : Nat} (hk : typedIdx snap ((res.getD x []).headD 0) = some k) :
    (applySnap snap res).getD x [] = snap.getD k [] := by
  unfold applySnap
  rw [getD_map_lt hx []]
  rw [hk]

theorem applySnap_untyped {snap res : List (List Int)} {x : Nat} (hx : x < res.length)
    (hk : typedIdx snap ((res.getD x []).headD 0) = none) :
    (applySnap snap res).getD x [] = res.getD x [] := by
  unfold applySnap
  rw [getD_map_lt hx []]
  rw [hk]

theorem attachStep_frame {M : List Profile} {s : Nat} {res : List (List Int)}
    {id y : Nat} (hy : y ≠ id + s) :
    (attachStep M s res id).getD y [] = res.getD y [] := by
  unfold attachStep
  by_cases h0 : 0 < id + s
  · rw [if_pos h0]
    by_cases hlt : (res.getD (argminIdx
        (fun j => profDist (M.getD (id + s) default) (M.getD j default)) (id + s)) []).getD
          (profDist (M.getD (id + s) default)
            (M.getD (argminIdx (fun j => profDist (M.getD (id + s) default)
              (M.getD j default)) (id + s)) default) + 1) 0 <
        (res.getD (id + s) []).getD
          (profDist (M.getD (id + s) default)
            (M.getD (argminIdx (fun j => profDist (M.getD (id + s) default)
              (M.getD j default)) (id + s)) default) + 1) 0
    · rw [if_pos hlt, getD_set_ne_row (fun he => hy he.symm)]
    · rw [if_neg hlt]
  · rw [if_neg h0]

theorem attach_fold_frame {M : List Profile} {s : Nat} (l : List Nat) :
    ∀ res : List (List Int), ∀ y, y < s →
      (l.foldl (attachStep M s) res).getD y [] = res.getD y [] := by
  induction l with
  | nil => intro res y _; rfl
  | cons a as ih =>
    intro res y hy
    rw [List.foldl_cons, ih _ y hy, attachStep_frame (by omega)]

theorem attachStep_cases (M : List Profile) (s : Nat) (res : List (List Int))
    (id : Nat) :
    attachStep M s res id = res ∨
    ∃ m : Nat, attachStep M s res id =
      res.set (id + s) (((res.getD (id + s) []).take (m + 1)) ++
        ((res.getD (argminIdx (fun j => profDist (M.getD (id + s) default)
          (M.getD j default)) (id + s)) []).drop (m + 1))) := by
  unfold attachStep
  by_cases h0 : 0 < id + s
  · rw [if_pos h0]
    dsimp only
    split
    · right
      exact ⟨_, rfl⟩
    · left
      rfl
  · rw [if_neg h0]
    left
    rfl

theorem take_append_ne_nil {r ri : List Int} {m : Nat} (hr : r ≠ []) :
    r.take (m + 1) ++ ri.drop (m + 1) ≠ [] := by
  intro h
  rcases List.append_eq_nil.1 h with ⟨h1, _⟩
  rcases List.take_eq_nil_iff.1 h1 with h2 | h2
  · omega
  · exact hr h2

theorem attachStep_ne_nil {M : List Profile} {s : Nat} {res : List (List Int)}
    (h : ∀ y, y < res.length → res.getD y [] ≠ []) (id : Nat) :
    ∀ y, y < (attachStep M s res id).length → (attachStep M s res id).getD y [] ≠ [] := by
  intro y hy
  rw [attachStep_len] at hy
  rcases attachStep_cases M s res id with hc | ⟨m, hc⟩
  · rw [hc]
    exact h y hy
  · rw [hc]
    by_cases hxy : y = id + s
    · subst hxy
      rw [getD_set_self_row hy]
      exact take_append_ne_nil (h _ hy)
    · rw [getD_set_ne_row (fun he => hxy he.symm)]
      exact h y hy

theorem attach_fold_ne_nil {M : List Profile} {s : Nat} (l : List Nat) :
    ∀ res : List (List Int), (∀ y, y < res.length → res.getD y [] ≠ []) →
      ∀ y, y < (l.foldl (attachStep M s) res).length →
        (l.foldl (attachStep M s) res).getD y [] ≠ [] := by
  induction l with
  | nil => intro res h y hy; exact h y hy
  | cons a as ih =>
    intro res h y hy
    rw [List.foldl_cons] at hy ⊢
    exact ih (attachStep M s res a) (attachStep_ne_nil h a) y hy

theorem reorderTyped_perm (snap : List (List Int)) (mat0 : List Profile) :
    (reorderTyped snap mat0).Perm mat0 := by
  unfold reorderTyped
  exact List.filter_append_perm _ mat0

theorem hierCC_append_typed_eq {snap : List (List Int)} {rows : List Profile}
    (hHT : hasTyped snap = true) :
    hierCC_append snap rows =
      setCol0 (reorderTyped snap (prepare_mat rows))
        (attachPass (reorderTyped snap (prepare_mat rows))
          ((prepare_mat rows).filter (fun r => isTyped snap r.id)).length
          (applySnap snap (initRes (reorderTyped snap (prepare_mat rows))))) := by
  unfold hierCC_append
  rw [hHT]
  rfl

theorem set_head_eq {l : List Int} {c : Int} (hne : l ≠ []) (hh : l.headD 0 = c) :
    l.set 0 c = l := by
  cases l with
  | nil => exact absurd rfl hne
  | cons a t =>
    have hh2 : a = c := hh
    rw [← hh2]
    rfl

theorem append_typed_findRow {snap : List (List Int)} {rows : List Profile}
    (hids : ((prepare_mat rows).map (fun r => r.id)).Nodup)
    {p : Profile} (hp : p ∈ prepare_mat rows) {k : Nat}
    (hk : typedIdx snap p.id = some k) :
    findRow (hierCC_append snap rows) p.id = snap.getD k [] := by
  have hHT : hasTyped snap = true := hasTyped_of_typedIdx hk
  obtain ⟨hklen, hkhead, hkpos⟩ := typedIdx_spec hk
  rw [hierCC_append_typed_eq hHT]
  set mat0 := prepare_mat rows with hmat0
  set T := mat0.filter (fun r => isTyped snap r.id) with hTdef
  set mat := reorderTyped snap mat0 with hmatdef
  set res2 := attachPass mat T.length (applySnap snap (initRes mat)) with hres2def
  have hpT : p ∈ T := by
    rw [hTdef]
    refine List.mem_filter.2 ⟨hp, ?_⟩
    unfold isTyped
    rw [hk]
    rfl
  obtain ⟨xp, hxp, hxpe⟩ := List.mem_iff_getElem.1 hpT
  have hmatperm : mat.Perm mat0 := reorderTyped_perm snap mat0
  have hmatids : (mat.map (fun r => r.id)).Nodup :=
    ((hmatperm.map (fun r => r.id)).nodup_iff).2 hids
  have hstartle : T.length ≤ mat.length := by
    rw [hmatdef]
    unfold reorderTyped
    rw [List.length_append, ← hTdef]
    omega
  have hxplen : xp < mat.length := lt_of_lt_of_le hxp hstartle
  have hmatxp : mat.getD xp default = p := by
    rw [hmatdef]
    unfold reorderTyped
    rw [← hTdef]
    have hlt : xp < (T ++ mat0.filter (fun r => ! isTyped snap r.id)).length := by
      rw [List.length_append]
      omega
    rw [getD_get hlt default, List.getElem_append_left hxp, hxpe]
  have hres1len : (applySnap snap (initRes mat)).length = mat.length := by
    rw [applySnap_len, initRes_len]
  have hres2len : res2.length = mat.length := by
    rw [hres2def, attachPass_len, applySnap_len, initRes_len]
  have hres1ne : ∀ y, y < (applySnap snap (initRes mat)).length →
      (applySnap snap (initRes mat)).getD y [] ≠ [] := by
    intro y hy
    rw [hres1len] at hy
    by_cases hcase : isTyped snap ((mat.getD y default).id) = true
    · obtain ⟨k2, hk2⟩ := isTyped_some hcase
      rw [applySnap_typed (by rw [initRes_len]; exact hy)
        (by rw [initRes_head hy]; exact hk2)]
      obtain ⟨hkl2, hkh2, hkp2⟩ := typedIdx_spec hk2
      intro hnil
      rw [hnil] at hkh2
      have h0 : (0 : Int) = (mat.getD y default).id := hkh2
      omega
    · rw [applySnap_untyped (by rw [initRes_len]; exact hy)
        (by rw [initRes_head hy]; exact isTyped_none (by simpa using hcase))]
      intro hnil
      have hlen := initRes_row_len hy
      rw [hnil] at hlen
      simp at hlen
  have hres2ne : ∀ y, y < res2.length → res2.getD y [] ≠ [] := by
    rw [hres2def]
    unfold attachPass
    exact attach_fold_ne_nil _ _ hres1ne
  have houthead : ∀ y, y < mat.length →
      ((setCol0 mat res2).getD y []).headD 0 = (mat.getD y default).id := by
    intro y hy
    rw [setCol0_getD hy (by rw [hres2len]; exact hy), headD_eq_getD,
      getD_set_self_any (List.length_pos.2 (hres2ne y (by rw [hres2len]; exact hy)))]
  have hres2xp : res2.getD xp [] = snap.getD k [] := by
    rw [hres2def]
    unfold attachPass
    rw [attach_fold_frame _ _ xp hxp]
    apply applySnap_typed (by rw [initRes_len]; exact hxplen)
    rw [initRes_head hxplen, hmatxp]
    exact hk
  have hfr : findRow (setCol0 mat res2) p.id = (setCol0 mat res2).getD xp [] := by
    apply findRow_eq xp
    · rw [setCol0_length hres2len]
      exact hxplen
    · rw [houthead xp hxplen, hmatxp]
    · intro y hy
      rw [houthead y (lt_trans hy hxplen)]
      intro he
      have hxy := id_inj hmatids (lt_trans hy hxplen) hxplen (by rw [hmatxp]; exact he)
      omega
  rw [hfr, setCol0_getD hxplen (by rw [hres2len]; exact hxplen), hres2xp, hmatxp]
  apply set_head_eq
  · intro hnil
    rw [hnil] at hkhead
    have h0 : (0 : Int) = p.id := hkhead
    omega
  · exact hkhead

/-- C6: re-running with `--append` on a snapshot that already contains a
profile as typed leaves that profile's CodeRow unchanged: for every
profile of the input whose id is typed in the snapshot (its id is the
positive head of snapshot row `k`, the row the typed-dictionary maps the
id to), the output row found for its id equals that snapshot row. -/
theorem append_snapshot_idempotent {snap : List (List Int)} {rows : List Profile}
    (hids : ((prepare_mat rows).map (fun r => r.id)).Nodup)
    {p : Profile} (hp : p ∈ prepare_mat rows) {k : Nat}
    (hk : typedIdx snap p.id = some k) :
    snapHead (snap.getD k []) = p.id ∧
    findRow (hierCC_append snap rows) p.id = snap.getD k [] :=
  ⟨(typedIdx_spec hk).2.1, append_typed_findRow hids hp hk⟩

theorem append_snapshot_idempotent_witness :
    ((prepare_mat exampleRows5).map (fun r => r.id)).Nodup ∧
    (⟨2, [1, 1, 2]⟩ : Profile) ∈ prepare_mat exampleRows5 ∧
    typedIdx exampleSnap (2 : Int) = some 1 ∧
    (snapHead (exampleSnap.getD 1 []) = (2 : Int) ∧
     findRow (hierCC_append exampleSnap exampleRows5) 2 = exampleSnap.getD 1 []) :=
  ⟨by decide, by decide, by decide,
    @append_snapshot_idempotent exampleSnap exampleRows5 (by decide)
      ⟨2, [1, 1, 2]⟩ (by decide) 1 (by decide)⟩

/-- C9: in an append run, the output CodeRow of a profile whose id is
typed in the snapshot is taken entirely from the snapshot: two input
files that both contain the id (with arbitrary, possibly different,
allele calls) give that id the same output row, namely its snapshot
row. -/
theorem append_typed_alleles_irrelevant {snap : List (List Int)}
    {rows1 rows2 : List Profile}
    (hids1 : ((prepare_mat rows1).map (fun r => r.id)).Nodup)
    (hids2 : ((prepare_mat rows2).map (fun r => r.id)).Nodup)
    {p1 p2 : Profile} (hp1 : p1 ∈ prepare_mat rows1) (hp2 : p2 ∈ prepare_mat rows2)
    (hid : p1.id = p2.id) {k : Nat} (hk : typedIdx snap p1.id = some k) :
    findRow (hierCC_append snap rows1) p1.id =
      findRow (hierCC_append snap rows2) p2.id ∧
    findRow (hierCC_append snap rows1) p1.id = snap.getD k [] := by
  have h1 := append_typed_findRow hids1 hp1 hk
  have h2 := append_typed_findRow hids2 hp2 (hid ▸ hk)
  refine ⟨?_, h1⟩
  rw [h1]
  exact h2.symm

theorem append_typed_alleles_irrelevant_witness :
    ((prepare_mat exampleRows5).map (fun r => r.id)).Nodup ∧
    ((prepare_mat exampleRows5b).map (fun r => r.id)).Nodup ∧
    (⟨2, [1, 1, 2]⟩ : Profile) ∈ prepare_mat exampleRows5 ∧
    (⟨2, [5, 6, 7]⟩ : Profile) ∈ prepare_mat exampleRows5b ∧
    (⟨2, [1, 1, 2]⟩ : Profile).id = (⟨2, [5, 6, 7]⟩ : Profile).id ∧
    typedIdx exampleSnap (2 : Int) = some 1 ∧
    (findRow (hierCC_append exampleSnap exampleRows5) 2 =
       findRow (hierCC_append exampleSnap exampleRows5b) 2 ∧
     findRow (hierCC_append exampleSnap exampleRows5) 2 = exampleSnap.getD 1 []) :=
  ⟨by decide, by decide, by decide, by decide, by decide, by decide,
    @append_typed_alleles_irrelevant exampleSnap exampleRows5 exampleRows5b
      (by decide) (by decide) ⟨2, [1, 1, 2]⟩ ⟨2, [5, 6, 7]⟩ (by decide) (by decide)
      (by decide) 1 (by decide)⟩

/-- C2 (amended): in a full run the partition induced by a larger
threshold is coarser: for thresholds `t1 ≤ t2` within range, two
profiles sharing a code value at threshold `t1` also share one at
threshold `t2`. (The original claim extends this to incremental runs,
which is refuted by `append_nonCoarsening_output`: an append run copies
snapshot rows verbatim, so a snapshot whose rows are not coarsening
yields a non-coarsening output.) -/
theorem full_run_coarsening (A : Nat) (rows : List Profile)
    (hlen : ∀ r ∈ rows, r.alleles.length = A)
    (hids : ((prepare_mat rows).map (fun r => r.id)).Nodup)
    (p q : Profile) (hp : p ∈ prepare_mat rows) (hq : q ∈ prepare_mat rows)
    (t1 t2 : Nat) (h12 : t1 ≤ t2) (ht2 : t2 ≤ A)
    (he : codeAt (hierCC_full rows) p.id t1 = codeAt (hierCC_full rows) q.id t1) :
    codeAt (hierCC_full rows) p.id t2 = codeAt (hierCC_full rows) q.id t2 := by
  have hpM := mem_sorted_of_prepare hp
  have hqM := mem_sorted_of_prepare hq
  obtain ⟨xp, hxp, hexp⟩ := List.mem_iff_getElem.1 hpM
  obtain ⟨xq, hxq, hexq⟩ := List.mem_iff_getElem.1 hqM
  have hexp2 : (stableSortBy absence (prepare_mat rows)).getD xp default = p := by
    rw [getD_get hxp default]
    exact hexp
  have hexq2 : (stableSortBy absence (prepare_mat rows)).getD xq default = q := by
    rw [getD_get hxq default]
    exact hexq
  have hWM := matWidth_sorted hlen hpM
  have ht1W : t1 + 1 < matWidth (stableSortBy absence (prepare_mat rows)) + 1 := by omega
  have ht2W : t2 + 1 < matWidth (stableSortBy absence (prepare_mat rows)) + 1 := by omega
  have hcp1 : codeAt (hierCC_full rows) p.id t1 = entry (hierCC_full rows) xp (t1 + 1) := by
    rw [codeAt, ← hexp2, findRow_full hlen hids hxp]
    rfl
  have hcq1 : codeAt (hierCC_full rows) q.id t1 = entry (hierCC_full rows) xq (t1 + 1) := by
    rw [codeAt, ← hexq2, findRow_full hlen hids hxq]
    rfl
  have hcp2 : codeAt (hierCC_full rows) p.id t2 = entry (hierCC_full rows) xp (t2 + 1) := by
    rw [codeAt, ← hexp2, findRow_full hlen hids hxp]
    rfl
  have hcq2 : codeAt (hierCC_full rows) q.id t2 = entry (hierCC_full rows) xq (t2 + 1) := by
    rw [codeAt, ← hexq2, findRow_full hlen hids hxq]
    rfl
  rw [hcp1, hcq1, full_entry_eq_iff hlen hids hxp hxq ht1W] at he
  rw [hcp2, hcq2, full_entry_eq_iff hlen hids hxp hxq ht2W]
  exact IdxConn_mono h12 he

theorem full_run_coarsening_witness :
    (∀ r ∈ exampleRows, r.alleles.length = 3) ∧
    ((prepare_mat exampleRows).map (fun r => r.id)).Nodup ∧
    (⟨1, [1, 1, 1]⟩ : Profile) ∈ prepare_mat exampleRows ∧
    (⟨2, [1, 1, 2]⟩ : Profile) ∈ prepare_mat exampleRows ∧
    (1 : Nat) ≤ 2 ∧ (2 : Nat) ≤ 3 ∧
    codeAt (hierCC_full exampleRows) 1 1 = codeAt (hierCC_full exampleRows) 2 1 ∧
    codeAt (hierCC_full exampleRows) 1 2 = codeAt (hierCC_full exampleRows) 2 2 :=
  ⟨by decide, by decide, by decide, by decide, by decide, by decide, by decide,
    full_run_coarsening 3 exampleRows (by decide) (by decide) ⟨1, [1, 1, 1]⟩
      ⟨2, [1, 1, 2]⟩ (by decide) (by decide) 1 2 (by decide) (by decide) (by decide)⟩

/-- C4 (amended): one encoding merge event at distance `d` overwrites
each absorbed-side row exactly at the columns from `d + 1` on, i.e. at
thresholds `t ≥ d` (not only `t > d` as the spec claims), copies there
the anchor row's values, leaves thresholds `t < d` of absorbed rows
unchanged, and leaves every row outside the absorbed side unchanged. -/
theorem encodeStep_frame {mat : List Profile} {res desc : List (List Int)}
    {u v d a b anchor : Nat}
    (ha : a = if (desc.getD v []).headD 0 < (desc.getD u []).headD 0 then v else u)
    (hb : b = if (desc.getD v []).headD 0 < (desc.getD u []).headD 0 then u else v)
    (hanchor : anchor = indexOfId mat (((desc.getD a []).min?).getD 0))
    (hnodup : ((desc.getD b []).map (indexOfId mat)).Nodup)
    (hne : ∀ tgt ∈ desc.getD b [], indexOfId mat tgt ≠ anchor) :
    (∀ y, (∀ tgt ∈ desc.getD b [], indexOfId mat tgt ≠ y) →
      (encodeStep mat (res, desc) (u, v, d)).1.getD y [] = res.getD y []) ∧
    (∀ tgt, tgt ∈ desc.getD b [] → indexOfId mat tgt < res.length →
      (res.getD anchor []).length = (res.getD (indexOfId mat tgt) []).length →
      (∀ t, t < d →
        ((encodeStep mat (res, desc) (u, v, d)).1.getD (indexOfId mat tgt) []).getD
            (t + 1) 0 =
          (res.getD (indexOfId mat tgt) []).getD (t + 1) 0) ∧
      (∀ t, d ≤ t →
        ((encodeStep mat (res, desc) (u, v, d)).1.getD (indexOfId mat tgt) []).getD
            (t + 1) 0 =
          (res.getD anchor []).getD (t + 1) 0)) := by
  subst ha
  subst hanchor
  subst hb
  have hstep : (encodeStep mat (res, desc) (u, v, d)).1 =
      (desc.getD (if (desc.getD v []).headD 0 < (desc.getD u []).headD 0 then u
        else v) []).foldl
        (absorbOne mat d
          (indexOfId mat
            (((desc.getD (if (desc.getD v []).headD 0 < (desc.getD u []).headD 0 then v
              else u) []).min?).getD 0)))
        res := rfl
  constructor
  · intro y hy
    rw [hstep]
    exact absorb_fold_getD_notmem hy res
  · intro tgt htgt hlt hlen
    have hmem := @absorb_fold_getD_mem mat d _ _ hnodup hne (indexOfId mat tgt) tgt htgt rfl res hlt
    rw [hstep] at *
    constructor
    · intro t ht
      rw [hmem, copy_getD_lt hlen (by omega)]
    · intro t ht
      rw [hmem, copy_getD_ge hlen (by omega)]

theorem encodeStep_frame_witness :
    ((0 : Nat) = if (([[1], [2], [3], [4]] : List (List Int)).getD 1 []).headD 0 <
        (([[1], [2], [3], [4]] : List (List Int)).getD 0 []).headD 0 then 1 else 0) ∧
    ((1 : Nat) = if (([[1], [2], [3], [4]] : List (List Int)).getD 1 []).headD 0 <
        (([[1], [2], [3], [4]] : List (List Int)).getD 0 []).headD 0 then 0 else 1) ∧
    ((0 : Nat) = indexOfId (prepare_mat exampleRows)
      (((([[1], [2], [3], [4]] : List (List Int)).getD 0 []).min?).getD 0)) ∧
    ((([[1], [2], [3], [4]] : List (List Int)).getD 1 []).map
      (indexOfId (prepare_mat exampleRows))).Nodup ∧
    (∀ tgt ∈ ([[1], [2], [3], [4]] : List (List Int)).getD 1 [],
      indexOfId (prepare_mat exampleRows) tgt ≠ 0) ∧
    (encodeStep (prepare_mat exampleRows)
        (initRes (prepare_mat exampleRows), [[1], [2], [3], [4]]) (0, 1, 1)).1.getD 2 [] =
      (initRes (prepare_mat exampleRows)).getD 2 [] ∧
    ((encodeStep (prepare_mat exampleRows)
        (initRes (prepare_mat exampleRows), [[1], [2], [3], [4]]) (0, 1, 1)).1.getD
          (indexOfId (prepare_mat exampleRows) 2) []).getD 1 0 =
      ((initRes (prepare_mat exampleRows)).getD
        (indexOfId (prepare_mat exampleRows) 2) []).getD 1 0 ∧
    ((encodeStep (prepare_mat exampleRows)
        (initRes (prepare_mat exampleRows), [[1], [2], [3], [4]]) (0, 1, 1)).1.getD
          (indexOfId (prepare_mat exampleRows) 2) []).getD 2 0 =
      ((initRes (prepare_mat exampleRows)).getD 0 []).getD 2 0 := by
  have h := @encodeStep_frame (prepare_mat exampleRows) (initRes (prepare_mat exampleRows))
    [[1], [2], [3], [4]] 0 1 1 0 1 0 (by decide) (by decide) (by decide) (by decide)
    (by decide)
  exact ⟨by decide, by decide, by decide, by decide, by decide,
    h.1 2 (by decide),
    (h.2 2 (by decide) (by decide) (by decide)).1 0 (by decide),
    (h.2 2 (by decide) (by decide) (by decide)).2 1 (by decide)⟩

theorem attachStep_yes {M : List Profile} {s id : Nat} {res : List (List Int)}
    (h0 : 0 < id + s)
    (hlt : (res.getD (argminIdx
        (fun j => profDist (M.getD (id + s) default) (M.getD j default)) (id + s)) []).getD
          (profDist (M.getD (id + s) default)
            (M.getD (argminIdx (fun j => profDist (M.getD (id + s) default)
              (M.getD j default)) (id + s)) default) + 1) 0 <
        (res.getD (id + s) []).getD
          (profDist (M.getD (id + s) default)
            (M.getD (argminIdx (fun j => profDist (M.getD (id + s) default)
              (M.getD j default)) (id + s)) default) + 1) 0) :
    attachStep M s res id = res.set (id + s)
      ((res.getD (id + s) []).take
          (profDist (M.getD (id + s) default)
            (M.getD (argminIdx (fun j => profDist (M.getD (id + s) default)
              (M.getD j default)) (id + s)) default) + 1) ++
        (res.getD (argminIdx
            (fun j => profDist (M.getD (id + s) default) (M.getD j default)) (id + s)) []).drop
          (profDist (M.getD (id + s) default)
            (M.getD (argminIdx (fun j => profDist (M.getD (id + s) default)
              (M.getD j default)) (id + s)) default) + 1)) := by
  unfold attachStep
  rw [if_pos h0]
  dsimp only
  rw [if_pos hlt]

theorem attachStep_no {M : List Profile} {s id : Nat} {res : List (List Int)}
    (h0 : 0 < id + s)
    (hlt : ¬ (res.getD (argminIdx
        (fun j => profDist (M.getD (id + s) default) (M.getD j default)) (id + s)) []).getD
          (profDist (M.getD (id + s) default)
            (M.getD (argminIdx (fun j => profDist (M.getD (id + s) default)
              (M.getD j default)) (id + s)) default) + 1) 0 <
        (res.getD (id + s) []).getD
          (profDist (M.getD (id + s) default)
            (M.getD (argminIdx (fun j => profDist (M.getD (id + s) default)
              (M.getD j default)) (id + s)) default) + 1) 0) :
    attachStep M s res id = res := by
  unfold attachStep
  rw [if_pos h0]
  dsimp only
  rw [if_neg hlt]

/-- C5 (amended): one incremental attachment step for the profile at row
`id + start` with `0 < id + start` picks as nearest neighbour the first
argmin `i` of the distances to rows `0 .. id + start - 1`, with minimum
distance `minD`, and overwrites the row at the columns from `minD + 1`
on — thresholds `t ≥ minD`, not `t ≥ minD + 1` as the spec claims — with
the neighbour's values exactly when the neighbour's code in column
`minD + 1` (threshold `minD`, not `minD + 1`) is smaller than its own;
thresholds `t < minD` and all other rows are untouched, and when
`id + start = 0` the step changes nothing. -/
theorem attach_step_spec {M : List Profile} {s id : Nat} {res : List (List Int)}
    {i minD : Nat}
    (hi : i = argminIdx (fun j => profDist (M.getD (id + s) default)
      (M.getD j default)) (id + s))
    (hminD : minD = profDist (M.getD (id + s) default) (M.getD i default))
    (hid : id + s < res.length)
    (hlen : (res.getD i []).length = (res.getD (id + s) []).length) :
    (id + s = 0 → attachStep M s res id = res) ∧
    (0 < id + s → i < id + s ∧
      (∀ j, j < id + s →
        minD ≤ profDist (M.getD (id + s) default) (M.getD j default)) ∧
      ((res.getD i []).getD (minD + 1) 0 < (res.getD (id + s) []).getD (minD + 1) 0 →
        (∀ t, t < minD →
          ((attachStep M s res id).getD (id + s) []).getD (t + 1) 0 =
            (res.getD (id + s) []).getD (t + 1) 0) ∧
        (∀ t, minD ≤ t →
          ((attachStep M s res id).getD (id + s) []).getD (t + 1) 0 =
            (res.getD i []).getD (t + 1) 0)) ∧
      (¬ (res.getD i []).getD (minD + 1) 0 < (res.getD (id + s) []).getD (minD + 1) 0 →
        attachStep M s res id = res)) ∧
    (∀ y, y ≠ id + s → (attachStep M s res id).getD y [] = res.getD y []) := by
  subst hminD
  subst hi
  refine ⟨?_, ?_, fun y hy => attachStep_frame hy⟩
  · intro h0
    unfold attachStep
    rw [if_neg (by omega)]
  · intro h0
    refine ⟨argminIdx_lt _ _ h0, fun j hj => argminIdx_min
      (fun j => profDist (M.getD (id + s) default) (M.getD j default)) (id + s) j hj,
      ?_, ?_⟩
    · intro hlt
      have hstep := attachStep_yes h0 hlt
      constructor
      · intro t ht
        rw [hstep, getD_set_self_row hid, copy_getD_lt hlen (by omega)]
      · intro t ht
        rw [hstep, getD_set_self_row hid, copy_getD_ge hlen (by omega)]
    · intro hnlt
      exact attachStep_no h0 hnlt

theorem attach_step_spec_witness :
    ((0 : Nat) = argminIdx (fun j => profDist (attachM.getD (1 + 0) default)
      (attachM.getD j default)) (1 + 0)) ∧
    ((1 : Nat) = profDist (attachM.getD (1 + 0) default) (attachM.getD 0 default)) ∧
    (1 + 0 < attachRes.length) ∧
    ((attachRes.getD 0 []).length = (attachRes.getD (1 + 0) []).length) ∧
    ((attachRes.getD 0 []).getD 2 0 < (attachRes.getD (1 + 0) []).getD 2 0) ∧
    ((attachStep attachM 0 attachRes 1).getD (1 + 0) []).getD 1 0 =
      (attachRes.getD (1 + 0) []).getD 1 0 ∧
    ((attachStep attachM 0 attachRes 1).getD (1 + 0) []).getD 2 0 =
      (attachRes.getD 0 []).getD 2 0 ∧
    (attachStep attachM 0 attachRes 1).getD 0 [] = attachRes.getD 0 [] := by
  have h := @attach_step_spec attachM 0 1 attachRes 0 1 (by decide) (by decide)
    (by decide) (by decide)
  have h2 := (h.2.1 (by decide)).2.2.1 (by decide)
  exact ⟨by decide, by decide, by decide, by decide, by decide,
    h2.1 0 (by decide), h2.2 1 (by decide), h.2.2 0 (by decide)⟩
